import Mathlib

set_option maxHeartbeats 1000000

/-!
Verification of the crash-report writer in
`Sources/CSignalHelpers/CSignalHelpers.c`.

The C code is embedded shallowly:
* a `char` buffer is a total map `Int → Char` from byte offsets relative to
  the base pointer (C stack buffers are uninitialised, so results must not
  depend on the initial contents);
* every converter threads an explicit state holding the cursor `p`, the
  buffer contents, and the trace of all offsets written (used to verify the
  bounds claims);
* the `write`/`fsync` side effects of the composer are modelled by an
  oracle `w : Nat → List Char → Int` giving the result of the `i`-th
  `write` call, and a state recording the strings handed to `write`.
-/

namespace CrashReport

/-- A C `char` buffer: contents at integer byte offsets from the base pointer. -/
def Buf : Type := Int → Char

/-- One byte store, `buf[i] = c`. -/
def store (b : Buf) (i : Int) (c : Char) : Buf := fun j => if j = i then c else b j

/-- The NUL character `'\0'`. -/
def nulC : Char := '\x00'

/-- Uninitialised stack memory; the concrete filler is irrelevant to every
result proved below. -/
def junk : Buf := fun _ => 'A'

/-- `strlen`-style scan: the characters from offset `i` up to (excluding) the
first NUL.  `fuel` bounds the scan; every call site below has the terminator
inside the buffer, so a fuel of the buffer capacity is always enough. -/
def cstring (b : Buf) (i : Int) : Nat → List Char
  | 0 => []
  | fuel + 1 => if b i = nulC then [] else b i :: cstring b (i + 1) fuel

/-- Converter state: cursor offset, buffer contents, trace of written offsets. -/
structure ConvSt where
  p : Int
  buf : Buf
  tr : List Int

/-- `*p-- = c`, recording the written offset. -/
def wr (st : ConvSt) (c : Char) : ConvSt :=
  ⟨st.p - 1, store st.buf st.p c, st.tr ++ [st.p]⟩

/-- `*p++ = c`, recording the written offset. -/
def wrF (st : ConvSt) (c : Char) : ConvSt :=
  ⟨st.p + 1, store st.buf st.p c, st.tr ++ [st.p]⟩

/-- `(char)(d + '0')`. -/
def dchar (d : Nat) : Char := Char.ofNat (48 + d)

/-- Narrowing an integer to `int32_t` (two's complement). -/
def toInt32 (x : Int) : Int := (x + 2 ^ 31) % 2 ^ 32 - 2 ^ 31

/-- The digit-emission loop of `simple_itoa`:
`while (val > 0 && p >= buf) { *p-- = (char)((val % 10) + '0'); val /= 10; }`. -/
def itoaLoop (val : Int) (st : ConvSt) : ConvSt :=
  if val > 0 ∧ st.p ≥ 0 then
    itoaLoop (val / 10) (wr st (dchar (val % 10).toNat))
  else st
termination_by val.toNat
decreasing_by
  rename_i h
  have h1 : val / 10 < val := by omega
  omega

/-- `simple_itoa` (CSignalHelpers.c lines 58–70): builds the decimal
representation right-to-left from the end of the buffer; returns the offset
of the first character of the result together with the final state.
The negation `val = -val` is modelled with two's-complement wrap-around. -/
def simple_itoa (val : Int) (b : Buf) (buf_len : Int) : Int × ConvSt :=
  let st := wr ⟨buf_len - 1, b, []⟩ nulC
  if val = 0 ∧ st.p > 0 then
    let st' := wr st '0'
    (st'.p + 1, st')
  else
    let v := if val < 0 then toInt32 (-val) else val
    let st' := itoaLoop v st
    let st'' := if val < 0 ∧ st'.p ≥ 0 then wr st' '-' else st'
    (st''.p + 1, st'')

/-- The digit-emission loop of `simple_ulltoa`. -/
def ulltoaLoop (val : Nat) (st : ConvSt) : ConvSt :=
  if val > 0 ∧ st.p ≥ 0 then
    ulltoaLoop (val / 10) (wr st (dchar (val % 10)))
  else st
termination_by val
decreasing_by exact Nat.div_lt_self (by omega) (by omega)

/-- `simple_ulltoa` (CSignalHelpers.c lines 73–82). -/
def simple_ulltoa (val : Nat) (b : Buf) (buf_len : Int) : Int × ConvSt :=
  let st := wr ⟨buf_len - 1, b, []⟩ nulC
  if val = 0 ∧ st.p > 0 then
    let st' := wr st '0'
    (st'.p + 1, st')
  else
    let st' := ulltoaLoop val st
    (st'.p + 1, st')

/-- `"0123456789abcdef"`. -/
def hexChars : List Char := "0123456789abcdef".toList

/-- The nibble-emission loop of `simple_ptr_to_hex`:
`while (val > 0 && p >= buf) { *p-- = hex_chars[val & 0xF]; val >>= 4; }`. -/
def hexLoop (val : Nat) (st : ConvSt) : ConvSt :=
  if val > 0 ∧ st.p ≥ 0 then
    hexLoop (val >>> 4) (wr st (hexChars.getD (val &&& 15) ' '))
  else st
termination_by val
decreasing_by
  rename_i h
  have : val >>> 4 = val / 2 ^ 4 := Nat.shiftRight_eq_div_pow val 4
  have : val / 2 ^ 4 < val := Nat.div_lt_self (by omega) (by norm_num)
  omega

/-- `simple_ptr_to_hex` (CSignalHelpers.c lines 85–98); the pointer argument
is modelled by its `uintptr_t` value. -/
def simple_ptr_to_hex (val : Nat) (b : Buf) (buf_len : Int) : Int × ConvSt :=
  let st := wr ⟨buf_len - 1, b, []⟩ nulC
  let st' := if val = 0 ∧ st.p > 0 then wr st '0' else st
  let st'' := hexLoop val st'
  let st3 := if st''.p > 0 then wr st'' 'x' else st''
  let st4 := if st3.p ≥ 0 then wr st3 '0' else st3
  (st4.p + 1, st4)

/-- The forward digit loop of `minimal_itoa_for_signals`:
`while (val > 0 && p < p_end) { *p++ = (char)((val % 10) + '0'); val /= 10; }`. -/
def mitoaLoop (val : Int) (pEnd : Int) (st : ConvSt) : ConvSt :=
  if val > 0 ∧ st.p < pEnd then
    mitoaLoop (val / 10) pEnd (wrF st (dchar (val % 10).toNat))
  else st
termination_by val.toNat
decreasing_by
  rename_i h
  have h1 : val / 10 < val := by omega
  have h2 : 0 ≤ val / 10 := by omega
  omega

/-- The in-place reversal loop of `minimal_itoa_for_signals`. -/
def revLoop (p1 p2 : Int) (b : Buf) : Buf :=
  if p1 < p2 then revLoop (p1 + 1) (p2 - 1) (store (store b p1 (b p2)) p2 (b p1))
  else b
termination_by (p2 - p1).toNat
decreasing_by omega

/-- `minimal_itoa_for_signals` (CSignalHelpers.c lines 11–54): builds the
digits left-to-right, reverses them in place, returns the offset of the NUL
terminator.  The negation is again modelled with two's-complement wrap. -/
def minimal_itoa_for_signals (val : Int) (b : Buf) (buf_size : Int) : Int × ConvSt :=
  if buf_size < 2 then (0, ⟨0, b, []⟩)
  else if val = 0 then
    let st := wrF ⟨0, b, []⟩ '0'
    (st.p, ⟨st.p, store st.buf st.p nulC, st.tr ++ [st.p]⟩)
  else if val < 0 ∧ buf_size < 3 then (0, ⟨0, b, []⟩)
  else
    let bOff : Int := if val < 0 then 1 else 0
    let v : Int := if val < 0 then toInt32 (-val) else val
    let bs : Int := if val < 0 then buf_size - 1 else buf_size
    let st0 : ConvSt := if val < 0 then wrF ⟨0, b, []⟩ '-' else ⟨0, b, []⟩
    let pEnd := bOff + bs - 1
    let st1 := mitoaLoop v pEnd st0
    let st2 := if st1.p = bOff ∧ st1.p < pEnd then wrF st1 '0' else st1
    let st3 : ConvSt := ⟨st2.p, store st2.buf st2.p nulC, st2.tr ++ [st2.p]⟩
    (st3.p, ⟨st3.p, revLoop bOff (st3.p - 1) st3.buf, st3.tr⟩)

/-! ### Reference renderings and parsers

`natDigitsRev`/`hexDigitsRev` are the mathematical digit sequences
(least-significant first) that the loops of the converters produce;
`parseNat`/`parseDec` is the standard decimal parser used to state the
round-trip properties of the specification. -/

/-- Decimal digits of `n`, least-significant first (`[]` for `0`). -/
def natDigitsRev (n : Nat) : List Char :=
  if n = 0 then [] else dchar (n % 10) :: natDigitsRev (n / 10)
termination_by n
decreasing_by exact Nat.div_lt_self (by omega) (by omega)

/-- Decimal digits of `n`, most-significant first (`[]` for `0`). -/
def natDecStr (n : Nat) : List Char := (natDigitsRev n).reverse

/-- The decimal rendering of an integer as the converters produce it. -/
def decChars (v : Int) : List Char :=
  if v = 0 then ['0'] else (if v < 0 then ['-'] else []) ++ natDecStr v.natAbs

/-- Hexadecimal digits of `n`, least-significant first (`[]` for `0`). -/
def hexDigitsRev (n : Nat) : List Char :=
  if n = 0 then [] else hexChars.getD (n % 16) ' ' :: hexDigitsRev (n / 16)
termination_by n
decreasing_by exact Nat.div_lt_self (by omega) (by omega)

/-- Lowercase hexadecimal digits of `n`, most-significant first. -/
def natHexStr (n : Nat) : List Char := (hexDigitsRev n).reverse

/-- The rendering `0x…` of a pointer value as the spec describes it. -/
def hexRender (n : Nat) : List Char :=
  if n = 0 then ['0', 'x', '0'] else '0' :: 'x' :: natHexStr n

/-- Numeric value of a decimal digit character. -/
def digVal (c : Char) : Nat := c.toNat - 48

/-- Standard decimal parser, accumulator form. -/
def parseNatAcc (acc : Nat) : List Char → Nat
  | [] => acc
  | c :: cs => parseNatAcc (acc * 10 + digVal c) cs

/-- Standard decimal parser for unsigned numerals. -/
def parseNat (l : List Char) : Nat := parseNatAcc 0 l

/-- Standard decimal parser with an optional leading minus sign. -/
def parseDec (l : List Char) : Int :=
  if l.head? = some '-' then -(parseNat l.tail : Int) else (parseNat l : Int)

/-- Write the characters of `l` at offsets `p, p-1, p-2, …` (the shape of the
stores the backwards digit loops perform). -/
def placeRev (b : Buf) (p : Int) : List Char → Buf
  | [] => b
  | c :: cs => placeRev (store b p c) (p - 1) cs

/-- Write the characters of `l` at offsets `p, p+1, p+2, …` (the shape of the
stores the forward digit loop of `minimal_itoa_for_signals` performs). -/
def placeFwd (b : Buf) (p : Int) : List Char → Buf
  | [] => b
  | c :: cs => placeFwd (store b p c) (p + 1) cs

/-! ### The report composer

`write(fd, s, strlen(s))` and its result are modelled by an oracle
`w : Nat → List Char → Int` giving the return value of the `i`-th `write`
call of the composer; the state records every string handed to `write`
(the attempted writes, in order) and the running `total_written`. -/

/-- Result model of the `write` system call. -/
def Oracle : Type := Nat → List Char → Int

/-- Composer state: number of `write` calls so far, the strings handed to
`write` in order, and `total_written`. -/
structure WSt where
  idx : Nat
  calls : List (List Char)
  total : Int

/-- `res = write(fd, s, strlen(s)); if (res > 0) total_written += res;` -/
def doWrite (w : Oracle) (s : List Char) (st : WSt) : WSt :=
  ⟨st.idx + 1, st.calls ++ [s],
    if w st.idx s > 0 then st.total + w st.idx s else st.total⟩

/-- The string `write_int32_val` hands to `write`: `simple_itoa` into a
`char[12]` stack buffer (uninitialised, modelled by `junk`), then `strlen`. -/
def int32Str (v : Int) : List Char :=
  cstring (simple_itoa v junk 12).2.buf (simple_itoa v junk 12).1 12

/-- The string `write_uint64_val` hands to `write` (`char[21]` buffer). -/
def uint64Str (v : Nat) : List Char :=
  cstring (simple_ulltoa v junk 21).2.buf (simple_ulltoa v junk 21).1 21

/-- The string `write_ptr_val` hands to `write`
(`char[sizeof(void*) * 2 + 3]` buffer, i.e. 19 bytes for 64-bit pointers). -/
def ptrStr (v : Nat) : List Char :=
  cstring (simple_ptr_to_hex v junk 19).2.buf (simple_ptr_to_hex v junk 19).1 19

/-- `"  0x0 (nil)\n"`. -/
def nilLine : List Char := "  0x0 (nil)\n".toList

/-- `"--- C Minimal Report End ---\n"`. -/
def endMarker : List Char := "--- C Minimal Report End ---\n".toList

/-- The body of the frame loop: one frame entry.  A frame is modelled by its
address value; `0` is the `NULL` marker. -/
def emitFrame (w : Oracle) (f : Nat) (st : WSt) : WSt :=
  if f ≠ 0 then
    doWrite w "\n".toList (doWrite w (ptrStr f) (doWrite w "  ".toList st))
  else
    doWrite w nilLine st

/-- `for (int i = 0; i < frame_count; ++i) { …; if (total_written > 4000) break; }` -/
def frameLoop (w : Oracle) (frames : Nat → Nat) (frame_count : Int) (i : Nat)
    (st : WSt) : WSt :=
  if (i : Int) < frame_count then
    let st' := emitFrame w (frames i) st
    if st'.total > 4000 then st' else frameLoop w frames frame_count (i + 1) st'
  else st
termination_by (frame_count - i).toNat
decreasing_by omega

/-- `write_minimal_crash_info_c` (CSignalHelpers.c lines 124–160).  The
`(int32_t)` casts of the C source are `toInt32`; the trailing `fsync` has no
observable effect in this model. -/
def write_minimal_crash_info_c (w : Oracle) (fd : Int) (signal_num : Int)
    (timestamp : Int) (thread_id : Nat) (frames : Nat → Nat)
    (frame_count : Int) : Int × WSt :=
  if fd < 0 then (-1, ⟨0, [], 0⟩)
  else
    let st := doWrite w "Signal: ".toList ⟨0, [], 0⟩
    let st := doWrite w (int32Str signal_num) st
    let st := doWrite w "\nTimestamp: ".toList st
    let st := doWrite w (int32Str (toInt32 timestamp)) st
    let st := doWrite w "\nThreadID: ".toList st
    let st := doWrite w (uint64Str thread_id) st
    let st := doWrite w "\nFrames_count: ".toList st
    let st := doWrite w (int32Str (toInt32 frame_count)) st
    let st := doWrite w "\nFrames (raw addresses):\n".toList st
    let st := frameLoop w frames frame_count 0 st
    let st := doWrite w endMarker st
    (if st.total > 0 then st.total else -1, st)

/-- The write model in which every write succeeds in full. -/
def succW : Oracle := fun _ s => (s.length : Int)

/-- The nine strings the composer hands to `write` before the frame loop. -/
def headerCalls (signal_num timestamp : Int) (thread_id : Nat)
    (frame_count : Int) : List (List Char) :=
  ["Signal: ".toList, int32Str signal_num, "\nTimestamp: ".toList,
   int32Str (toInt32 timestamp), "\nThreadID: ".toList, uint64Str thread_id,
   "\nFrames_count: ".toList, int32Str (toInt32 frame_count),
   "\nFrames (raw addresses):\n".toList]

/-- `pos r + pos r' + …` over a call list: the total the composer accumulates
(each result added only when positive). -/
def sumPos (w : Oracle) (i : Nat) : List (List Char) → Int
  | [] => 0
  | s :: r => (if w i s > 0 then w i s else 0) + sumPos w (i + 1) r

/-- The text emitted for one frame entry. -/
def lineChars (f : Nat) : List Char :=
  if f ≠ 0 then "  ".toList ++ ptrStr f ++ "\n".toList else nilLine

/-- Sum of the emitted lengths of frames `i, …, m-1`. -/
def sumLines (frames : Nat → Nat) (i m : Nat) : Int :=
  if i < m then (lineChars (frames i)).length + sumLines frames (i + 1) m else 0
termination_by m - i
decreasing_by omega

/-- A call that opens a frame line: the indent of an address line or the
whole nil line (each loop iteration makes exactly one such call, nothing
else in the report does). -/
def isFrameStart (s : List Char) : Bool :=
  s = "  ".toList || s = nilLine

/-- The per-step invariant of the composer state: the call index counts the
calls, and `total_written` is the sum of the positive write results. -/
def WInv (w : Oracle) (st : WSt) : Prop :=
  st.idx = st.calls.length ∧ st.total = sumPos w 0 st.calls

/-- The strings one frame-loop iteration hands to `write`. -/
def frameCalls (f : Nat) : List (List Char) :=
  if f ≠ 0 then ["  ".toList, ptrStr f, "\n".toList] else [nilLine]

/-- The composer state after the nine header writes. -/
def headerSt (w : Oracle) (signal_num timestamp : Int) (thread_id : Nat)
    (frame_count : Int) : WSt :=
  doWrite w "\nFrames (raw addresses):\n".toList
    (doWrite w (int32Str (toInt32 frame_count))
      (doWrite w "\nFrames_count: ".toList
        (doWrite w (uint64Str thread_id)
          (doWrite w "\nThreadID: ".toList
            (doWrite w (int32Str (toInt32 timestamp))
              (doWrite w "\nTimestamp: ".toList
                (doWrite w (int32Str signal_num)
                  (doWrite w "Signal: ".toList ⟨0, [], 0⟩))))))))

/-- Total length of the header strings. -/
def headerLen (signal_num timestamp : Int) (thread_id : Nat) (frame_count : Int) : Int :=
  ((headerCalls signal_num timestamp thread_id frame_count).map
    (fun s => (s.length : Int))).sum

/-- `val & 0xF` is the low nibble. -/
theorem and_fifteen (n : Nat) : n &&& 15 = n % 16 := by
  have h := Nat.and_pow_two_sub_one_eq_mod n 4
  norm_num at h
  exact h

/-! ### Buffer lemmas -/

theorem store_hit (b : Buf) (i : Int) (c : Char) : store b i c i = c := by
  simp [store]

theorem store_miss (b : Buf) (i j : Int) (c : Char) (h : j ≠ i) : store b i c j = b j := by
  simp [store, h]

theorem placeRev_out (l : List Char) (b : Buf) (p i : Int)
    (h : p < i ∨ i ≤ p - l.length) : placeRev b p l i = b i := by
  induction l generalizing b p with
  | nil => rfl
  | cons c cs ih =>
    show placeRev (store b p c) (p - 1) cs i = b i
    have hlen : ((c :: cs).length : Int) = (cs.length : Int) + 1 := by
      push_cast [List.length_cons]; ring
    rw [ih (store b p c) (p - 1) (by omega)]
    exact store_miss b p i c (by omega)

theorem placeRev_get (l : List Char) (b : Buf) (p : Int) (k : Nat) (hk : k < l.length) :
    placeRev b p l (p - k) = l.getD k ' ' := by
  induction l generalizing b p k with
  | nil => simp at hk
  | cons c cs ih =>
    cases k with
    | zero =>
      show placeRev (store b p c) (p - 1) cs (p - (0 : Nat)) = c
      rw [placeRev_out cs (store b p c) (p - 1) (p - (0 : Nat)) (by left; omega)]
      simpa using store_hit b p c
    | succ k =>
      show placeRev (store b p c) (p - 1) cs (p - ((k : Nat) + 1 : Nat)) = cs.getD k ' '
      have harith : (p - ((k : Nat) + 1 : Nat) : Int) = (p - 1) - (k : Nat) := by
        push_cast; ring
      rw [harith, ih (store b p c) (p - 1) k (by simpa using hk)]

theorem placeFwd_out (l : List Char) (b : Buf) (p i : Int)
    (h : i < p ∨ p + l.length ≤ i) : placeFwd b p l i = b i := by
  induction l generalizing b p with
  | nil => rfl
  | cons c cs ih =>
    show placeFwd (store b p c) (p + 1) cs i = b i
    have hlen : ((c :: cs).length : Int) = (cs.length : Int) + 1 := by
      push_cast [List.length_cons]; ring
    rw [ih (store b p c) (p + 1) (by omega)]
    exact store_miss b p i c (by omega)

theorem placeFwd_get (l : List Char) (b : Buf) (p : Int) (k : Nat) (hk : k < l.length) :
    placeFwd b p l (p + k) = l.getD k ' ' := by
  induction l generalizing b p k with
  | nil => simp at hk
  | cons c cs ih =>
    cases k with
    | zero =>
      show placeFwd (store b p c) (p + 1) cs (p + (0 : Nat)) = c
      rw [placeFwd_out cs (store b p c) (p + 1) (p + (0 : Nat)) (by left; omega)]
      simpa using store_hit b p c
    | succ k =>
      show placeFwd (store b p c) (p + 1) cs (p + ((k : Nat) + 1 : Nat)) = cs.getD k ' '
      have harith : (p + ((k : Nat) + 1 : Nat) : Int) = (p + 1) + (k : Nat) := by
        push_cast; ring
      rw [harith, ih (store b p c) (p + 1) k (by simpa using hk)]

/-- Reading a NUL-terminated region: if the buffer holds exactly the
characters of `l` (none of them NUL) at `start, start+1, …` followed by a
NUL, the `strlen`-style scan returns `l`. -/
theorem cstring_region (l : List Char) (b : Buf) (start : Int) (fuel : Nat)
    (hv : ∀ k, k < l.length → b (start + k) = l.getD k ' ')
    (hn : ∀ c ∈ l, c ≠ nulC)
    (ht : b (start + l.length) = nulC)
    (hf : l.length + 1 ≤ fuel) :
    cstring b start fuel = l := by
  induction l generalizing start fuel with
  | nil =>
    obtain ⟨f, rfl⟩ : ∃ f, fuel = f + 1 := ⟨fuel - 1, by omega⟩
    simpa [cstring] using ht
  | cons c cs ih =>
    obtain ⟨f, rfl⟩ : ∃ f, fuel = f + 1 := ⟨fuel - 1, by omega⟩
    have h0 : b start = c := by simpa using hv 0 (by simp)
    rw [cstring, h0, if_neg (hn c (by simp))]
    congr 1
    apply ih
    · intro k hk
      have := hv (k + 1) (by simpa using Nat.succ_lt_succ hk)
      have harith : (start + ((k : Nat) + 1 : Nat) : Int) = (start + 1) + (k : Nat) := by
        push_cast; ring
      rw [harith] at this
      simpa using this
    · intro c' hc'; exact hn c' (by simp [hc'])
    · have harith : (start + ((cs.length : Nat) + 1 : Nat) : Int)
          = (start + 1) + (cs.length : Nat) := by push_cast; ring
      have := ht
      simp only [List.length_cons] at this
      rwa [harith] at this
    · simp at hf ⊢; omega

/-! ### Digit characters -/

theorem dchar_facts (d : Nat) (hd : d < 10) :
    (dchar d).toNat = 48 + d ∧ dchar d ≠ nulC ∧ dchar d ≠ '-' ∧ dchar d ≠ ' ' := by
  interval_cases d <;> exact ⟨by decide, by decide, by decide, by decide⟩

theorem digVal_dchar (d : Nat) (hd : d < 10) : digVal (dchar d) = d := by
  have := (dchar_facts d hd).1
  simp [digVal, this]

theorem hexChar_ne_nul (d : Nat) (hd : d < 16) : hexChars.getD d ' ' ≠ nulC := by
  interval_cases d <;> decide

theorem hexChar_ne_zeroChar (d : Nat) (hd0 : 0 < d) (hd : d < 16) :
    hexChars.getD d ' ' ≠ '0' := by
  interval_cases d <;> decide

theorem natDigitsRev_mem (n : Nat) : ∀ c ∈ natDigitsRev n, ∃ d, d < 10 ∧ c = dchar d := by
  induction n using Nat.strong_induction_on with
  | _ n ih =>
    intro c hc
    by_cases h0 : n = 0
    · subst h0; simp [natDigitsRev] at hc
    · rw [natDigitsRev, if_neg h0] at hc
      rcases List.mem_cons.mp hc with hc | hc
      · exact ⟨n % 10, Nat.mod_lt _ (by omega), hc⟩
      · exact ih (n / 10) (Nat.div_lt_self (by omega) (by omega)) c hc

theorem natDigitsRev_ne_nul (n : Nat) : ∀ c ∈ natDigitsRev n, c ≠ nulC := by
  intro c hc
  obtain ⟨d, hd, rfl⟩ := natDigitsRev_mem n c hc
  exact (dchar_facts d hd).2.1

theorem hexDigitsRev_mem (n : Nat) :
    ∀ c ∈ hexDigitsRev n, ∃ d, d < 16 ∧ c = hexChars.getD d ' ' := by
  induction n using Nat.strong_induction_on with
  | _ n ih =>
    intro c hc
    by_cases h0 : n = 0
    · subst h0; simp [hexDigitsRev] at hc
    · rw [hexDigitsRev, if_neg h0] at hc
      rcases List.mem_cons.mp hc with hc | hc
      · exact ⟨n % 16, Nat.mod_lt _ (by omega), hc⟩
      · exact ih (n / 16) (Nat.div_lt_self (by omega) (by omega)) c hc

theorem hexDigitsRev_ne_nul (n : Nat) : ∀ c ∈ hexDigitsRev n, c ≠ nulC := by
  intro c hc
  obtain ⟨d, hd, rfl⟩ := hexDigitsRev_mem n c hc
  exact hexChar_ne_nul d hd

theorem natDigitsRev_len_le (k : Nat) : ∀ n, n < 10 ^ k → (natDigitsRev n).length ≤ k := by
  induction k with
  | zero =>
    intro n hn
    interval_cases n
    simp [natDigitsRev]
  | succ k ih =>
    intro n hn
    by_cases h0 : n = 0
    · subst h0; simp [natDigitsRev]
    · rw [natDigitsRev, if_neg h0]
      have : n / 10 < 10 ^ k := by
        rw [Nat.div_lt_iff_lt_mul (by omega)]
        calc n < 10 ^ (k + 1) := hn
        _ = 10 ^ k * 10 := by ring
      simpa using ih (n / 10) this

theorem hexDigitsRev_len_le (k : Nat) : ∀ n, n < 16 ^ k → (hexDigitsRev n).length ≤ k := by
  induction k with
  | zero =>
    intro n hn
    interval_cases n
    simp [hexDigitsRev]
  | succ k ih =>
    intro n hn
    by_cases h0 : n = 0
    · subst h0; simp [hexDigitsRev]
    · rw [hexDigitsRev, if_neg h0]
      have : n / 16 < 16 ^ k := by
        rw [Nat.div_lt_iff_lt_mul (by omega)]
        calc n < 16 ^ (k + 1) := hn
        _ = 16 ^ k * 16 := by ring
      simpa using ih (n / 16) this

theorem natDigitsRev_len_pos (n : Nat) (hn : 0 < n) : 0 < (natDigitsRev n).length := by
  rw [natDigitsRev, if_neg (by omega)]
  simp

theorem hexDigitsRev_len_pos (n : Nat) (hn : 0 < n) : 0 < (hexDigitsRev n).length := by
  rw [hexDigitsRev, if_neg (by omega)]
  simp

theorem natDigitsRev_cons (n : Nat) (h : n ≠ 0) :
    natDigitsRev n = dchar (n % 10) :: natDigitsRev (n / 10) := by
  rw [natDigitsRev, if_neg h]

theorem hexDigitsRev_cons (n : Nat) (h : n ≠ 0) :
    hexDigitsRev n = hexChars.getD (n % 16) ' ' :: hexDigitsRev (n / 16) := by
  rw [hexDigitsRev, if_neg h]

/-! ### Characterization of the digit loops -/

theorem ulltoaLoop_eq (n : Nat) : ∀ st : ConvSt,
    ((natDigitsRev n).length : Int) ≤ st.p + 1 →
    (ulltoaLoop n st).p = st.p - (natDigitsRev n).length ∧
    (ulltoaLoop n st).buf = placeRev st.buf st.p (natDigitsRev n) := by
  induction n using Nat.strong_induction_on with
  | _ n ih =>
    intro st hroom
    by_cases h0 : n = 0
    · subst h0
      rw [ulltoaLoop, if_neg (by simp)]
      simp [natDigitsRev, placeRev]
    · have hL1 : 0 < (natDigitsRev n).length := natDigitsRev_len_pos n (by omega)
      have hp0 : st.p ≥ 0 := by omega
      rw [ulltoaLoop, if_pos ⟨by omega, hp0⟩]
      have hlen : (natDigitsRev (n / 10)).length + 1 = (natDigitsRev n).length := by
        rw [natDigitsRev_cons n h0]; simp
      obtain ⟨hp, hbuf⟩ := ih (n / 10) (Nat.div_lt_self (by omega) (by omega))
        (wr st (dchar (n % 10))) (by simp [wr]; omega)
      constructor
      · rw [hp]; simp [wr]; omega
      · rw [hbuf, natDigitsRev_cons n h0]
        rfl

theorem itoaLoop_eq_ull (n : Nat) : ∀ st : ConvSt, itoaLoop (n : Int) st = ulltoaLoop n st := by
  induction n using Nat.strong_induction_on with
  | _ n ih =>
    intro st
    rw [itoaLoop, ulltoaLoop]
    by_cases hg : n > 0 ∧ st.p ≥ 0
    · rw [if_pos (show (n : Int) > 0 ∧ st.p ≥ 0 from ⟨by exact_mod_cast hg.1, hg.2⟩),
        if_pos hg]
      have h10 : ((n : Int)) / 10 = ((n / 10 : Nat) : Int) := by omega
      have hm : (((n : Int)) % 10).toNat = n % 10 := by omega
      rw [h10, hm]
      exact ih (n / 10) (Nat.div_lt_self hg.1 (by omega)) _
    · rw [if_neg (by intro hcon; exact hg ⟨by exact_mod_cast hcon.1, hcon.2⟩), if_neg hg]

theorem hexLoop_eq (n : Nat) : ∀ st : ConvSt,
    ((hexDigitsRev n).length : Int) ≤ st.p + 1 →
    (hexLoop n st).p = st.p - (hexDigitsRev n).length ∧
    (hexLoop n st).buf = placeRev st.buf st.p (hexDigitsRev n) := by
  induction n using Nat.strong_induction_on with
  | _ n ih =>
    intro st hroom
    by_cases h0 : n = 0
    · subst h0
      rw [hexLoop, if_neg (by simp)]
      simp [hexDigitsRev, placeRev]
    · have hL1 : 0 < (hexDigitsRev n).length := hexDigitsRev_len_pos n (by omega)
      have hp0 : st.p ≥ 0 := by omega
      rw [hexLoop, if_pos ⟨by omega, hp0⟩]
      have hsh : n >>> 4 = n / 16 := by
        have := Nat.shiftRight_eq_div_pow n 4
        norm_num at this
        exact this
      have hlen : (hexDigitsRev (n / 16)).length + 1 = (hexDigitsRev n).length := by
        rw [hexDigitsRev_cons n h0]; simp
      rw [hsh, and_fifteen]
      obtain ⟨hp, hbuf⟩ := ih (n / 16) (Nat.div_lt_self (by omega) (by omega))
        (wr st (hexChars.getD (n % 16) ' ')) (by simp [wr]; omega)
      constructor
      · rw [hp]; simp [wr]; omega
      · rw [hbuf, hexDigitsRev_cons n h0]
        rfl

theorem mitoaLoop_eq (n : Nat) : ∀ (pEnd : Int) (st : ConvSt),
    st.p + ((natDigitsRev n).length : Int) ≤ pEnd →
    (mitoaLoop (n : Int) pEnd st).p = st.p + (natDigitsRev n).length ∧
    (mitoaLoop (n : Int) pEnd st).buf = placeFwd st.buf st.p (natDigitsRev n) := by
  induction n using Nat.strong_induction_on with
  | _ n ih =>
    intro pEnd st hroom
    by_cases h0 : n = 0
    · subst h0
      rw [mitoaLoop, if_neg (by simp)]
      simp [natDigitsRev, placeFwd]
    · have hL1 : 0 < (natDigitsRev n).length := natDigitsRev_len_pos n (by omega)
      have hplt : st.p < pEnd := by omega
      rw [mitoaLoop, if_pos ⟨by exact_mod_cast Nat.pos_of_ne_zero h0, hplt⟩]
      have h10 : ((n : Int)) / 10 = ((n / 10 : Nat) : Int) := by omega
      have hm : (((n : Int)) % 10).toNat = n % 10 := by omega
      have hlen : (natDigitsRev (n / 10)).length + 1 = (natDigitsRev n).length := by
        rw [natDigitsRev_cons n h0]; simp
      rw [h10, hm]
      obtain ⟨hp, hbuf⟩ := ih (n / 10) (Nat.div_lt_self (by omega) (by omega))
        pEnd (wrF st (dchar (n % 10))) (by simp [wrF]; omega)
      constructor
      · rw [hp]; simp [wrF]; omega
      · rw [hbuf, natDigitsRev_cons n h0]
        rfl

/-- The loops never touch offsets above the initial cursor. -/
theorem ulltoaLoop_buf_high (n : Nat) : ∀ (st : ConvSt) (i : Int), st.p < i →
    (ulltoaLoop n st).buf i = st.buf i := by
  induction n using Nat.strong_induction_on with
  | _ n ih =>
    intro st i hi
    rw [ulltoaLoop]
    by_cases hg : n > 0 ∧ st.p ≥ 0
    · rw [if_pos hg]
      rw [ih (n / 10) (Nat.div_lt_self (by omega) (by omega)) _ i (by simp [wr]; omega)]
      exact store_miss _ _ _ _ (by omega)
    · rw [if_neg hg]

theorem hexLoop_buf_high (n : Nat) : ∀ (st : ConvSt) (i : Int), st.p < i →
    (hexLoop n st).buf i = st.buf i := by
  induction n using Nat.strong_induction_on with
  | _ n ih =>
    intro st i hi
    rw [hexLoop]
    by_cases hg : n > 0 ∧ st.p ≥ 0
    · rw [if_pos hg]
      have hsh : n >>> 4 = n / 16 := by
        have := Nat.shiftRight_eq_div_pow n 4
        norm_num at this
        exact this
      rw [hsh]
      rw [ih (n / 16) (Nat.div_lt_self (by omega) (by omega)) _ i (by simp [wr]; omega)]
      exact store_miss _ _ _ _ (by omega)
    · rw [if_neg hg]

/-- All offsets the loop writes lie in `[0, st.p]`. -/
theorem ulltoaLoop_tr (n : Nat) : ∀ (st : ConvSt), ∀ j ∈ (ulltoaLoop n st).tr,
    j ∈ st.tr ∨ (0 ≤ j ∧ j ≤ st.p) := by
  induction n using Nat.strong_induction_on with
  | _ n ih =>
    intro st j hj
    rw [ulltoaLoop] at hj
    by_cases hg : n > 0 ∧ st.p ≥ 0
    · rw [if_pos hg] at hj
      rcases ih (n / 10) (Nat.div_lt_self (by omega) (by omega)) _ j hj with h | h
      · simp only [wr, List.mem_append, List.mem_singleton] at h
        rcases h with h | h
        · exact Or.inl h
        · exact Or.inr ⟨by omega, by omega⟩
      · simp only [wr] at h
        exact Or.inr ⟨h.1, by omega⟩
    · rw [if_neg hg] at hj
      exact Or.inl hj

theorem hexLoop_tr (n : Nat) : ∀ (st : ConvSt), ∀ j ∈ (hexLoop n st).tr,
    j ∈ st.tr ∨ (0 ≤ j ∧ j ≤ st.p) := by
  induction n using Nat.strong_induction_on with
  | _ n ih =>
    intro st j hj
    rw [hexLoop] at hj
    by_cases hg : n > 0 ∧ st.p ≥ 0
    · rw [if_pos hg] at hj
      rcases ih (n >>> 4) (by
          have := Nat.shiftRight_eq_div_pow n 4
          have h2 : n / 2 ^ 4 < n := Nat.div_lt_self (by omega) (by norm_num)
          omega) _ j hj with h | h
      · simp only [wr, List.mem_append, List.mem_singleton] at h
        rcases h with h | h
        · exact Or.inl h
        · exact Or.inr ⟨by omega, by omega⟩
      · simp only [wr] at h
        exact Or.inr ⟨h.1, by omega⟩
    · rw [if_neg hg] at hj
      exact Or.inl hj

/-- `itoaLoop` on a non-positive value is the identity. -/
theorem itoaLoop_nonpos (val : Int) (st : ConvSt) (h : val ≤ 0) : itoaLoop val st = st := by
  rw [itoaLoop, if_neg (by omega)]

/-- The in-place reversal reverses the region `[p1, p2]` pointwise. -/
theorem revLoop_eq : ∀ (m : Nat) (p1 p2 : Int), (p2 - p1).toNat = m → ∀ (b : Buf) (i : Int),
    revLoop p1 p2 b i = if p1 ≤ i ∧ i ≤ p2 then b (p1 + p2 - i) else b i := by
  intro m
  induction m using Nat.strong_induction_on with
  | _ m ih =>
    intro p1 p2 hm b i
    rw [revLoop]
    by_cases hlt : p1 < p2
    · rw [if_pos hlt]
      rw [ih ((p2 - 1) - (p1 + 1)).toNat (by omega) (p1 + 1) (p2 - 1) rfl]
      by_cases hin : p1 + 1 ≤ i ∧ i ≤ p2 - 1
      · rw [if_pos hin, if_pos (show p1 ≤ i ∧ i ≤ p2 by omega)]
        have h1 : (p1 + 1 + (p2 - 1) - i) = p1 + p2 - i := by ring
        rw [h1, store_miss _ _ _ _ (by omega), store_miss _ _ _ _ (by omega)]
      · rw [if_neg hin]
        by_cases hi1 : i = p1
        · subst hi1
          rw [if_pos ⟨le_refl _, by omega⟩, store_miss _ _ _ _ (by omega), store_hit]
          congr 1; ring
        · by_cases hi2 : i = p2
          · subst hi2
            rw [if_pos ⟨by omega, le_refl _⟩, store_hit]
            congr 1; ring
          · rw [if_neg (by omega), store_miss _ _ _ _ hi2, store_miss _ _ _ _ hi1]
    · rw [if_neg hlt]
      by_cases hin : p1 ≤ i ∧ i ≤ p2
      · rw [if_pos hin]; congr 1; omega
      · rw [if_neg hin]

/-- `toInt32` is the identity on the `int32_t` range. -/
theorem toInt32_eq_self (x : Int) (h1 : -2 ^ 31 ≤ x) (h2 : x < 2 ^ 31) : toInt32 x = x := by
  unfold toInt32
  have h32 : (2 : Int) ^ 32 = 4294967296 := by norm_num
  have h31 : (2 : Int) ^ 31 = 2147483648 := by norm_num
  rw [h32, h31]
  rw [h31] at h1 h2
  omega

/-! ### The strings the converters leave in their buffers -/

theorem wr_p (st : ConvSt) (c : Char) : (wr st c).p = st.p - 1 := rfl
theorem wr_buf (st : ConvSt) (c : Char) : (wr st c).buf = store st.buf st.p c := rfl
theorem wrF_p (st : ConvSt) (c : Char) : (wrF st c).p = st.p + 1 := rfl
theorem wrF_buf (st : ConvSt) (c : Char) : (wrF st c).buf = store st.buf st.p c := rfl

theorem getD_reverse (l : List Char) (k : Nat) (d : Char) (hk : k < l.length) :
    l.reverse.getD k d = l.getD (l.length - 1 - k) d := by
  rw [List.getD_eq_getElem?_getD, List.getD_eq_getElem?_getD,
    List.getElem?_reverse (by simpa using hk)]

theorem natDecStr_length (n : Nat) : (natDecStr n).length = (natDigitsRev n).length := by
  simp [natDecStr]

theorem natHexStr_length (n : Nat) : (natHexStr n).length = (hexDigitsRev n).length := by
  simp [natHexStr]

/-- Output of `simple_ulltoa` into its 21-byte buffer. -/
theorem simple_ulltoa_out (n : Nat) (b : Buf) (hn : n < 10 ^ 20) :
    cstring (simple_ulltoa n b 21).2.buf (simple_ulltoa n b 21).1 21
      = if n = 0 then ['0'] else natDecStr n := by
  by_cases h0 : n = 0
  · subst h0
    rw [if_pos rfl]
    simp [simple_ulltoa, wr, cstring, store, nulC]
  · rw [if_neg h0]
    have hL : (natDigitsRev n).length ≤ 20 := natDigitsRev_len_le 20 n hn
    obtain ⟨hp, hbuf⟩ := ulltoaLoop_eq n (wr ⟨21 - 1, b, []⟩ nulC)
      (by show ((natDigitsRev n).length : Int) ≤ 21 - 1 - 1 + 1; omega)
    simp only [simple_ulltoa]
    rw [if_neg (show ¬(n = 0 ∧ (wr (⟨21 - 1, b, []⟩ : ConvSt) nulC).p > 0) from
      fun hc => h0 hc.1)]
    show cstring (ulltoaLoop n (wr ⟨21 - 1, b, []⟩ nulC)).buf
      ((ulltoaLoop n (wr ⟨21 - 1, b, []⟩ nulC)).p + 1) 21 = natDecStr n
    rw [hp, hbuf, wr_p, wr_buf]
    show cstring (placeRev (store b 20 nulC) 19 (natDigitsRev n))
      (19 - ((natDigitsRev n).length : Int) + 1) 21 = natDecStr n
    apply cstring_region
    · intro k hk
      rw [natDecStr_length] at hk
      have hpos : (19 : Int) - ((natDigitsRev n).length : Int) + 1 + (k : Nat)
          = 19 - (((natDigitsRev n).length - 1 - k : Nat) : Int) := by omega
      rw [hpos, placeRev_get _ _ _ _ (by omega),
        show natDecStr n = (natDigitsRev n).reverse from rfl,
        getD_reverse _ _ _ hk]
    · intro c hc
      exact natDigitsRev_ne_nul n c (by simpa [natDecStr] using hc)
    · rw [natDecStr_length]
      have hpos : (19 : Int) - ((natDigitsRev n).length : Int) + 1
          + ((natDigitsRev n).length : Nat) = 20 := by omega
      rw [hpos, placeRev_out _ _ _ _ (by left; omega)]
      exact store_hit b 20 nulC
    · rw [natDecStr_length]; omega

theorem store_hit' (b : Buf) (i : Int) (c : Char) (j : Int) (h : j = i) :
    store b i c j = c := by rw [h]; exact store_hit b i c

theorem placeRev_get' (l : List Char) (b : Buf) (p : Int) (k : Nat) (i : Int)
    (hk : k < l.length) (hi : i = p - k) : placeRev b p l i = l.getD k ' ' := by
  subst hi; exact placeRev_get l b p k hk

theorem placeFwd_get' (l : List Char) (b : Buf) (p : Int) (k : Nat) (i : Int)
    (hk : k < l.length) (hi : i = p + k) : placeFwd b p l i = l.getD k ' ' := by
  subst hi; exact placeFwd_get l b p k hk

/-- `cstring_region` with the offsets supplied as equations (convenient with
`omega`). -/
theorem cstring_region' (l : List Char) (b : Buf) (start : Int) (fuel : Nat)
    (hv : ∀ k, k < l.length → ∀ i : Int, i = start + k → b i = l.getD k ' ')
    (hn : ∀ c ∈ l, c ≠ nulC)
    (ht : ∀ i : Int, i = start + l.length → b i = nulC)
    (hf : l.length + 1 ≤ fuel) :
    cstring b start fuel = l :=
  cstring_region l b start fuel (fun k hk => hv k hk _ rfl) hn (ht _ rfl) hf

/-- Output of `simple_itoa` into its 12-byte buffer, for every `int32_t`
value except `INT32_MIN`. -/
theorem simple_itoa_out (v : Int) (b : Buf) (h1 : -2 ^ 31 ≤ v) (h2 : v < 2 ^ 31)
    (h3 : v ≠ -2 ^ 31) :
    cstring (simple_itoa v b 12).2.buf (simple_itoa v b 12).1 12 = decChars v := by
  have h31 : (2 : Int) ^ 31 = 2147483648 := by norm_num
  by_cases h0 : v = 0
  · subst h0
    simp [simple_itoa, wr, cstring, store, nulC, decChars]
  · have hm10 : v.natAbs < 10 ^ 10 := by
      have : (2147483648 : Nat) < 10 ^ 10 := by norm_num
      omega
    have hL : (natDigitsRev v.natAbs).length ≤ 10 := natDigitsRev_len_le 10 _ hm10
    have hL1 : 0 < (natDigitsRev v.natAbs).length :=
      natDigitsRev_len_pos _ (by omega)
    obtain ⟨hp, hbuf⟩ := ulltoaLoop_eq v.natAbs (wr ⟨12 - 1, b, []⟩ nulC)
      (by show ((natDigitsRev v.natAbs).length : Int) ≤ 12 - 1 - 1 + 1; omega)
    simp only [simple_itoa]
    rw [if_neg (show ¬(v = 0 ∧ (wr (⟨12 - 1, b, []⟩ : ConvSt) nulC).p > 0) from
      fun hc => h0 hc.1)]
    rcases lt_or_gt_of_ne h0 with hneg | hpos
    · -- v < 0: digits of -v, then the minus sign
      have hmins : toInt32 (-v) = ((v.natAbs : Nat) : Int) := by
        rw [toInt32_eq_self (-v) (by omega) (by omega)]; omega
      rw [if_pos hneg, hmins, itoaLoop_eq_ull]
      simp only [hp, wr_p]
      rw [if_pos ⟨hneg, by omega⟩]
      simp only [hp, hbuf, wr_p, wr_buf]
      have hdec : decChars v = '-' :: natDecStr v.natAbs := by
        rw [decChars, if_neg h0, if_pos hneg]; rfl
      rw [hdec]
      apply cstring_region'
      · intro k hk i hi
        simp only [List.length_cons, natDecStr_length] at hk
        cases k with
        | zero =>
          rw [List.getD_cons_zero]
          exact store_hit' _ _ _ _ (by omega)
        | succ k =>
          rw [List.getD_cons_succ, store_miss _ _ _ _ (by omega),
            placeRev_get' _ _ _ ((natDigitsRev v.natAbs).length - 1 - k) i
              (by omega) (by omega),
            show natDecStr v.natAbs = (natDigitsRev v.natAbs).reverse from rfl,
            getD_reverse _ _ _ (by omega)]
      · intro c hc
        rcases List.mem_cons.mp hc with hc | hc
        · subst hc; decide
        · exact natDigitsRev_ne_nul _ c (by simpa [natDecStr] using hc)
      · intro i hi
        simp only [List.length_cons, natDecStr_length] at hi
        rw [store_miss _ _ _ _ (by omega), placeRev_out _ _ _ _ (by left; omega)]
        exact store_hit' _ _ _ _ (by omega)
      · simp only [List.length_cons, natDecStr_length]; omega
    · -- v > 0: digits only
      have hvtn : v = ((v.natAbs : Nat) : Int) := by omega
      rw [if_neg (by omega : ¬v < 0),
        show itoaLoop v = itoaLoop ((v.natAbs : Nat) : Int) from by rw [← hvtn],
        itoaLoop_eq_ull,
        if_neg (show ¬(v < 0 ∧ (ulltoaLoop v.natAbs (wr ⟨12 - 1, b, []⟩ nulC)).p ≥ 0)
          from fun hc => absurd hc.1 (by omega))]
      simp only [hp, hbuf, wr_p, wr_buf]
      have hdec : decChars v = natDecStr v.natAbs := by
        rw [decChars, if_neg h0, if_neg (by omega)]; rfl
      rw [hdec]
      apply cstring_region'
      · intro k hk i hi
        rw [natDecStr_length] at hk
        rw [placeRev_get' _ _ _ ((natDigitsRev v.natAbs).length - 1 - k) i
            (by omega) (by omega),
          show natDecStr v.natAbs = (natDigitsRev v.natAbs).reverse from rfl,
          getD_reverse _ _ _ (by omega)]
      · intro c hc
        exact natDigitsRev_ne_nul _ c (by simpa [natDecStr] using hc)
      · intro i hi
        rw [natDecStr_length] at hi
        rw [placeRev_out _ _ _ _ (by left; omega)]
        exact store_hit' _ _ _ _ (by omega)
      · rw [natDecStr_length]; omega

/-- Output of `simple_ptr_to_hex` into its 19-byte buffer. -/
theorem simple_ptr_to_hex_out (n : Nat) (b : Buf) (hn : n < 16 ^ 16) :
    cstring (simple_ptr_to_hex n b 19).2.buf (simple_ptr_to_hex n b 19).1 19
      = hexRender n := by
  by_cases h0 : n = 0
  · subst h0
    simp [simple_ptr_to_hex, hexLoop, wr, cstring, store, nulC, hexRender]
  · have hL : (hexDigitsRev n).length ≤ 16 := hexDigitsRev_len_le 16 n hn
    have hL1 : 0 < (hexDigitsRev n).length := hexDigitsRev_len_pos n (by omega)
    obtain ⟨hp, hbuf⟩ := hexLoop_eq n (wr ⟨19 - 1, b, []⟩ nulC)
      (by show ((hexDigitsRev n).length : Int) ≤ 19 - 1 - 1 + 1; omega)
    simp only [simple_ptr_to_hex]
    rw [if_neg (show ¬(n = 0 ∧ (wr (⟨19 - 1, b, []⟩ : ConvSt) nulC).p > 0) from
      fun hc => h0 hc.1)]
    simp only [hp, hbuf, wr_p, wr_buf]
    rw [if_pos (show (19 : Int) - 1 - 1 - ((hexDigitsRev n).length : Int) > 0 by omega)]
    simp only [hp, hbuf, wr_p, wr_buf]
    rw [if_pos (show (19 : Int) - 1 - 1 - ((hexDigitsRev n).length : Int) - 1 ≥ 0 by omega)]
    simp only [hp, hbuf, wr_p, wr_buf]
    rw [hexRender, if_neg h0]
    apply cstring_region'
    · intro k hk i hi
      simp only [List.length_cons, natHexStr_length] at hk
      cases k with
      | zero =>
        rw [List.getD_cons_zero]
        exact store_hit' _ _ _ _ (by omega)
      | succ k =>
        cases k with
        | zero =>
          rw [List.getD_cons_succ, List.getD_cons_zero,
            store_miss _ _ _ _ (by omega)]
          exact store_hit' _ _ _ _ (by omega)
        | succ k =>
          rw [List.getD_cons_succ, List.getD_cons_succ,
            store_miss _ _ _ _ (by omega), store_miss _ _ _ _ (by omega),
            placeRev_get' _ _ _ ((hexDigitsRev n).length - 1 - k) i
              (by omega) (by omega),
            show natHexStr n = (hexDigitsRev n).reverse from rfl,
            getD_reverse _ _ _ (by omega)]
    · intro c hc
      rcases List.mem_cons.mp hc with hc | hc
      · subst hc; decide
      · rcases List.mem_cons.mp hc with hc | hc
        · subst hc; decide
        · exact hexDigitsRev_ne_nul n c (by simpa [natHexStr] using hc)
    · intro i hi
      simp only [List.length_cons, natHexStr_length] at hi
      rw [store_miss _ _ _ _ (by omega), store_miss _ _ _ _ (by omega),
        placeRev_out _ _ _ _ (by left; omega)]
      exact store_hit' _ _ _ _ (by omega)
    · simp only [List.length_cons, natHexStr_length]; omega

/-- Output of `minimal_itoa_for_signals` into a 12-byte buffer (the string
starts at the base of the buffer). -/
theorem minimal_itoa_out (v : Int) (b : Buf) (h1 : -2 ^ 31 ≤ v) (h2 : v < 2 ^ 31)
    (h3 : v ≠ -2 ^ 31) :
    cstring (minimal_itoa_for_signals v b 12).2.buf 0 12 = decChars v := by
  have h31 : (2 : Int) ^ 31 = 2147483648 := by norm_num
  by_cases h0 : v = 0
  · subst h0
    simp [minimal_itoa_for_signals, wrF, cstring, store, nulC, decChars]
  · have hm10 : v.natAbs < 10 ^ 10 := by
      have : (2147483648 : Nat) < 10 ^ 10 := by norm_num
      omega
    have hL : (natDigitsRev v.natAbs).length ≤ 10 := natDigitsRev_len_le 10 _ hm10
    have hL1 : 0 < (natDigitsRev v.natAbs).length :=
      natDigitsRev_len_pos _ (by omega)
    simp only [minimal_itoa_for_signals]
    rw [if_neg (show ¬(12 : Int) < 2 by norm_num), if_neg h0]
    rcases lt_or_gt_of_ne h0 with hneg | hpos
    · -- v < 0
      have hmins : toInt32 (-v) = ((v.natAbs : Nat) : Int) := by
        rw [toInt32_eq_self (-v) (by omega) (by omega)]; omega
      rw [if_neg (show ¬(v < 0 ∧ (12 : Int) < 3) from fun hc => absurd hc.2 (by norm_num))]
      simp only [if_pos hneg, hmins]
      obtain ⟨hp, hbuf⟩ := mitoaLoop_eq v.natAbs (1 + (12 - 1) - 1) (wrF ⟨0, b, []⟩ '-')
        (by show (wrF (⟨0, b, []⟩ : ConvSt) '-').p + ((natDigitsRev v.natAbs).length : Int)
              ≤ 1 + (12 - 1) - 1
            rw [wrF_p]
            show (0 : Int) + 1 + ((natDigitsRev v.natAbs).length : Int) ≤ 1 + (12 - 1) - 1
            omega)
      simp only [hp, hbuf, wrF_p, wrF_buf]
      rw [if_neg (show ¬((0 : Int) + 1 + ((natDigitsRev v.natAbs).length : Int) = 1 ∧
          (0 : Int) + 1 + ((natDigitsRev v.natAbs).length : Int) < 1 + (12 - 1) - 1) from
        fun hc => by omega)]
      simp only [hp, hbuf, wrF_p, wrF_buf]
      have hdec : decChars v = '-' :: natDecStr v.natAbs := by
        rw [decChars, if_neg h0, if_pos hneg]; rfl
      rw [hdec]
      apply cstring_region'
      · intro k hk i hi
        simp only [List.length_cons, natDecStr_length] at hk
        rw [revLoop_eq _ _ _ rfl]
        cases k with
        | zero =>
          rw [if_neg (by omega), List.getD_cons_zero,
            store_miss _ _ _ _ (by omega),
            placeFwd_out _ _ _ _ (by left; omega)]
          exact store_hit' _ _ _ _ (by omega)
        | succ k =>
          rw [if_pos (show (1 : Int) ≤ i ∧
              i ≤ (0 : Int) + 1 + ((natDigitsRev v.natAbs).length : Int) - 1 by omega),
            List.getD_cons_succ,
            store_miss _ _ _ _ (by omega),
            placeFwd_get' _ _ _ ((natDigitsRev v.natAbs).length - 1 - k) _
              (by omega) (by omega),
            show natDecStr v.natAbs = (natDigitsRev v.natAbs).reverse from rfl,
            getD_reverse _ _ _ (by omega)]
      · intro c hc
        rcases List.mem_cons.mp hc with hc | hc
        · subst hc; decide
        · exact natDigitsRev_ne_nul _ c (by simpa [natDecStr] using hc)
      · intro i hi
        simp only [List.length_cons, natDecStr_length] at hi
        rw [revLoop_eq _ _ _ rfl, if_neg (by omega)]
        exact store_hit' _ _ _ _ (by omega)
      · simp only [List.length_cons, natDecStr_length]; omega
    · -- v > 0
      have hvtn : v = ((v.natAbs : Nat) : Int) := by omega
      rw [if_neg (show ¬(v < 0 ∧ (12 : Int) < 3) from fun hc => absurd hc.1 (by omega))]
      simp only [if_neg (show ¬v < 0 by omega)]
      obtain ⟨hp, hbuf⟩ := mitoaLoop_eq v.natAbs (0 + 12 - 1) (⟨0, b, []⟩ : ConvSt)
        (by show ((⟨0, b, []⟩ : ConvSt) : ConvSt).p + ((natDigitsRev v.natAbs).length : Int)
              ≤ 0 + 12 - 1
            show (0 : Int) + ((natDigitsRev v.natAbs).length : Int) ≤ 0 + 12 - 1
            omega)
      rw [show mitoaLoop v = mitoaLoop ((v.natAbs : Nat) : Int) from by rw [← hvtn]]
      simp only [hp, hbuf]
      rw [if_neg (show ¬((0 : Int) + ((natDigitsRev v.natAbs).length : Int) = 0 ∧
          (0 : Int) + ((natDigitsRev v.natAbs).length : Int) < 0 + 12 - 1) from
        fun hc => by omega)]
      simp only [hp, hbuf]
      have hdec : decChars v = natDecStr v.natAbs := by
        rw [decChars, if_neg h0, if_neg (by omega)]; rfl
      rw [hdec]
      apply cstring_region'
      · intro k hk i hi
        rw [natDecStr_length] at hk
        rw [revLoop_eq _ _ _ rfl,
          if_pos (show (0 : Int) ≤ i ∧
            i ≤ (0 : Int) + ((natDigitsRev v.natAbs).length : Int) - 1 by omega),
          store_miss _ _ _ _ (by omega),
          placeFwd_get' _ _ _ ((natDigitsRev v.natAbs).length - 1 - k) _
            (by omega) (by omega),
          show natDecStr v.natAbs = (natDigitsRev v.natAbs).reverse from rfl,
          getD_reverse _ _ _ (by omega)]
      · intro c hc
        exact natDigitsRev_ne_nul _ c (by simpa [natDecStr] using hc)
      · intro i hi
        rw [natDecStr_length] at hi
        rw [revLoop_eq _ _ _ rfl, if_neg (by omega)]
        exact store_hit' _ _ _ _ (by omega)
      · rw [natDecStr_length]; omega

/-! ### The standard decimal parser round-trips the renderings -/

theorem parseNatAcc_nil (acc : Nat) : parseNatAcc acc [] = acc := rfl

theorem parseNatAcc_cons (acc : Nat) (c : Char) (cs : List Char) :
    parseNatAcc acc (c :: cs) = parseNatAcc (acc * 10 + digVal c) cs := rfl

theorem parseNatAcc_append (l : List Char) (c : Char) : ∀ acc,
    parseNatAcc acc (l ++ [c]) = 10 * parseNatAcc acc l + digVal c := by
  induction l with
  | nil =>
    intro acc
    show acc * 10 + digVal c = 10 * acc + digVal c
    ring
  | cons d ds ih =>
    intro acc
    rw [List.cons_append, parseNatAcc_cons, parseNatAcc_cons]
    exact ih _

theorem parseNatAcc_natDecStr (n : Nat) : ∀ acc,
    parseNatAcc acc (natDecStr n) = acc * 10 ^ (natDigitsRev n).length + n := by
  induction n using Nat.strong_induction_on with
  | _ n ih =>
    intro acc
    by_cases h0 : n = 0
    · subst h0
      rw [show natDecStr 0 = [] from by simp [natDecStr, natDigitsRev],
        parseNatAcc_nil,
        show (natDigitsRev 0).length = 0 from by simp [natDigitsRev]]
      simp
    · have hsplit : natDecStr n = natDecStr (n / 10) ++ [dchar (n % 10)] := by
        rw [natDecStr, natDecStr, natDigitsRev_cons n h0]
        simp
      have hdm : 10 * (n / 10) + n % 10 = n := by omega
      rw [hsplit, parseNatAcc_append,
        ih (n / 10) (Nat.div_lt_self (by omega) (by omega)) acc,
        digVal_dchar _ (Nat.mod_lt _ (by omega)), natDigitsRev_cons n h0]
      simp only [List.length_cons]
      calc 10 * (acc * 10 ^ (natDigitsRev (n / 10)).length + n / 10) + n % 10
          = acc * (10 ^ (natDigitsRev (n / 10)).length * 10)
            + (10 * (n / 10) + n % 10) := by ring
        _ = acc * 10 ^ ((natDigitsRev (n / 10)).length + 1) + n := by
            rw [hdm, pow_succ]

theorem parseNat_natDecStr (n : Nat) : parseNat (natDecStr n) = n := by
  have := parseNatAcc_natDecStr n 0
  simpa [parseNat] using this

/-- Parsing the rendering of any integer gives the integer back. -/
theorem parseDec_decChars (v : Int) : parseDec (decChars v) = v := by
  by_cases h0 : v = 0
  · subst h0
    decide
  · rcases lt_or_gt_of_ne h0 with hneg | hpos
    · have hd : decChars v = '-' :: natDecStr v.natAbs := by
        rw [decChars, if_neg h0, if_pos hneg]; rfl
      rw [hd, parseDec]
      rw [if_pos (by rfl)]
      simp only [List.tail_cons, parseNat_natDecStr]
      omega
    · have hd : decChars v = natDecStr v.natAbs := by
        rw [decChars, if_neg h0, if_neg (by omega)]; rfl
      have hne : (natDecStr v.natAbs).head? ≠ some '-' := by
        intro hh
        obtain ⟨d, hd10, hdc⟩ := natDigitsRev_mem v.natAbs '-' (by
          have := List.mem_of_mem_head? (l := natDecStr v.natAbs) (by rw [hh]; rfl)
          simpa [natDecStr] using this)
        exact absurd hdc.symm (dchar_facts d hd10).2.2.1
      rw [hd, parseDec, if_neg hne, parseNat_natDecStr]
      omega

/-! ### Monotonicity and write-trace bounds of the loops -/

theorem ulltoaLoop_p_le (n : Nat) : ∀ st : ConvSt, (ulltoaLoop n st).p ≤ st.p := by
  induction n using Nat.strong_induction_on with
  | _ n ih =>
    intro st
    rw [ulltoaLoop]
    by_cases hg : n > 0 ∧ st.p ≥ 0
    · rw [if_pos hg]
      have := ih (n / 10) (Nat.div_lt_self (by omega) (by omega)) (wr st (dchar (n % 10)))
      rw [wr_p] at this
      omega
    · rw [if_neg hg]

theorem hexLoop_p_le (n : Nat) : ∀ st : ConvSt, (hexLoop n st).p ≤ st.p := by
  induction n using Nat.strong_induction_on with
  | _ n ih =>
    intro st
    rw [hexLoop]
    by_cases hg : n > 0 ∧ st.p ≥ 0
    · rw [if_pos hg]
      have := ih (n >>> 4) (by
        have := Nat.shiftRight_eq_div_pow n 4
        have h2 : n / 2 ^ 4 < n := Nat.div_lt_self (by omega) (by norm_num)
        omega) (wr st (hexChars.getD (n &&& 15) ' '))
      rw [wr_p] at this
      omega
    · rw [if_neg hg]

theorem itoaLoop_cases (val : Int) (st : ConvSt) :
    itoaLoop val st = ulltoaLoop val.toNat st ∨ itoaLoop val st = st := by
  by_cases hv : 0 < val
  · left
    have h2 : itoaLoop val st = itoaLoop ((val.toNat : Nat) : Int) st := by
      congr 1
      omega
    rw [h2, itoaLoop_eq_ull]
  · right
    exact itoaLoop_nonpos val st (by omega)

theorem itoaLoop_p_le (val : Int) (st : ConvSt) : (itoaLoop val st).p ≤ st.p := by
  rcases itoaLoop_cases val st with h | h
  · rw [h]; exact ulltoaLoop_p_le val.toNat st
  · rw [h]

theorem itoaLoop_tr (val : Int) (st : ConvSt) : ∀ j ∈ (itoaLoop val st).tr,
    j ∈ st.tr ∨ (0 ≤ j ∧ j ≤ st.p) := by
  rcases itoaLoop_cases val st with h | h
  · rw [h]; exact ulltoaLoop_tr val.toNat st
  · rw [h]; intro j hj; exact Or.inl hj

theorem itoaLoop_buf_high (val : Int) (st : ConvSt) (i : Int) (hi : st.p < i) :
    (itoaLoop val st).buf i = st.buf i := by
  rcases itoaLoop_cases val st with h | h
  · rw [h]; exact ulltoaLoop_buf_high val.toNat st i hi
  · rw [h]

/-! ### Write-bound safety of the three converters (positive capacity) -/

/-- For any capacity `≥ 1`, `simple_itoa` writes only inside the buffer and
leaves a NUL terminator at the last byte. -/
theorem simple_itoa_safe (v : Int) (b : Buf) (cap : Int) (hcap : 1 ≤ cap) :
    (∀ i ∈ (simple_itoa v b cap).2.tr, 0 ≤ i ∧ i < cap) ∧
    (simple_itoa v b cap).2.buf (cap - 1) = nulC := by
  simp only [simple_itoa]
  by_cases hfast : v = 0 ∧ (wr (⟨cap - 1, b, []⟩ : ConvSt) nulC).p > 0
  · rw [if_pos hfast]
    have hgt : cap - 1 - 1 > 0 := hfast.2
    constructor
    · intro i hi
      have hi' : i ∈ ([cap - 1, cap - 1 - 1] : List Int) := hi
      simp only [List.mem_cons, List.mem_singleton, List.not_mem_nil, or_false] at hi'
      rcases hi' with hi' | hi' <;> subst hi' <;> exact ⟨by omega, by omega⟩
    · show store (store b (cap - 1) nulC) (cap - 1 - 1) '0' (cap - 1) = nulC
      rw [store_miss _ _ _ _ (by omega)]
      exact store_hit _ _ _
  · rw [if_neg hfast]
    have hple : (itoaLoop (if v < 0 then toInt32 (-v) else v)
        (wr ⟨cap - 1, b, []⟩ nulC)).p ≤ cap - 1 - 1 :=
      itoaLoop_p_le _ _
    have htr : ∀ j ∈ (itoaLoop (if v < 0 then toInt32 (-v) else v)
        (wr ⟨cap - 1, b, []⟩ nulC)).tr, j ∈ ([cap - 1] : List Int) ∨ (0 ≤ j ∧ j ≤ cap - 1 - 1) :=
      itoaLoop_tr _ _
    constructor
    · intro i hi
      by_cases hsign : v < 0 ∧
          (itoaLoop (if v < 0 then toInt32 (-v) else v) (wr ⟨cap - 1, b, []⟩ nulC)).p ≥ 0
      · rw [if_pos hsign] at hi
        have hs2 := hsign.2
        have hi' : i ∈ (itoaLoop (if v < 0 then toInt32 (-v) else v)
            (wr ⟨cap - 1, b, []⟩ nulC)).tr ++
            [(itoaLoop (if v < 0 then toInt32 (-v) else v)
              (wr ⟨cap - 1, b, []⟩ nulC)).p] := hi
        rcases List.mem_append.mp hi' with hh | hh
        · rcases htr i hh with hh' | hh'
          · rw [List.mem_singleton] at hh'
            subst hh'; exact ⟨by omega, by omega⟩
          · exact ⟨by omega, by omega⟩
        · rw [List.mem_singleton] at hh
          subst hh; exact ⟨by omega, by omega⟩
      · rw [if_neg hsign] at hi
        rcases htr i hi with hh | hh
        · rw [List.mem_singleton] at hh
          subst hh; exact ⟨by omega, by omega⟩
        · exact ⟨by omega, by omega⟩
    · by_cases hsign : v < 0 ∧
          (itoaLoop (if v < 0 then toInt32 (-v) else v) (wr ⟨cap - 1, b, []⟩ nulC)).p ≥ 0
      · rw [if_pos hsign, wr_buf, store_miss _ _ _ _ (by omega),
          itoaLoop_buf_high _ _ _ (show (wr (⟨cap - 1, b, []⟩ : ConvSt) nulC).p < cap - 1
            from by show cap - 1 - 1 < cap - 1; omega), wr_buf]
        exact store_hit _ _ _
      · rw [if_neg hsign,
          itoaLoop_buf_high _ _ _ (show (wr (⟨cap - 1, b, []⟩ : ConvSt) nulC).p < cap - 1
            from by show cap - 1 - 1 < cap - 1; omega), wr_buf]
        exact store_hit _ _ _

/-- Same for `simple_ulltoa`. -/
theorem simple_ulltoa_safe (n : Nat) (b : Buf) (cap : Int) (hcap : 1 ≤ cap) :
    (∀ i ∈ (simple_ulltoa n b cap).2.tr, 0 ≤ i ∧ i < cap) ∧
    (simple_ulltoa n b cap).2.buf (cap - 1) = nulC := by
  simp only [simple_ulltoa]
  by_cases hfast : n = 0 ∧ (wr (⟨cap - 1, b, []⟩ : ConvSt) nulC).p > 0
  · rw [if_pos hfast]
    have hgt : cap - 1 - 1 > 0 := hfast.2
    constructor
    · intro i hi
      have hi' : i ∈ ([cap - 1, cap - 1 - 1] : List Int) := hi
      simp only [List.mem_cons, List.mem_singleton, List.not_mem_nil, or_false] at hi'
      rcases hi' with hi' | hi' <;> subst hi' <;> exact ⟨by omega, by omega⟩
    · show store (store b (cap - 1) nulC) (cap - 1 - 1) '0' (cap - 1) = nulC
      rw [store_miss _ _ _ _ (by omega)]
      exact store_hit _ _ _
  · rw [if_neg hfast]
    constructor
    · intro i hi
      rcases ulltoaLoop_tr n _ i hi with hh | hh
      · have hh' : i ∈ ([cap - 1] : List Int) := hh
        rw [List.mem_singleton] at hh'
        subst hh'; exact ⟨by omega, by omega⟩
      · have hh' : 0 ≤ i ∧ i ≤ cap - 1 - 1 := hh
        exact ⟨by omega, by omega⟩
    · rw [ulltoaLoop_buf_high n _ _ (show (wr (⟨cap - 1, b, []⟩ : ConvSt) nulC).p < cap - 1
          from by show cap - 1 - 1 < cap - 1; omega), wr_buf]
      exact store_hit _ _ _

/-- Same for `simple_ptr_to_hex`. -/
theorem simple_ptr_to_hex_safe (n : Nat) (b : Buf) (cap : Int) (hcap : 1 ≤ cap) :
    (∀ i ∈ (simple_ptr_to_hex n b cap).2.tr, 0 ≤ i ∧ i < cap) ∧
    (simple_ptr_to_hex n b cap).2.buf (cap - 1) = nulC := by
  simp only [simple_ptr_to_hex]
  set st0 : ConvSt := wr ⟨cap - 1, b, []⟩ nulC with hst0
  set st1 : ConvSt := if n = 0 ∧ st0.p > 0 then wr st0 '0' else st0 with hst1
  have hst0p : st0.p = cap - 1 - 1 := by rw [hst0]; rfl
  have hst1p : st1.p ≤ cap - 2 ∧ st1.p ≥ cap - 3 := by
    rw [hst1]
    by_cases hz : n = 0 ∧ st0.p > 0
    · rw [if_pos hz, wr_p]; omega
    · rw [if_neg hz]; omega
  have hst1tr : ∀ j ∈ st1.tr, 0 ≤ j ∧ j < cap := by
    intro j hj
    rw [hst1] at hj
    by_cases hz : n = 0 ∧ st0.p > 0
    · rw [if_pos hz] at hj
      have hgt : cap - 1 - 1 > 0 := hst0p ▸ hz.2
      have hj' : j ∈ ([cap - 1, cap - 1 - 1] : List Int) := hj
      simp only [List.mem_cons, List.mem_singleton, List.not_mem_nil, or_false] at hj'
      rcases hj' with hj' | hj' <;> subst hj' <;> exact ⟨by omega, by omega⟩
    · rw [if_neg hz] at hj
      have hj' : j ∈ ([cap - 1] : List Int) := hj
      rw [List.mem_singleton] at hj'
      subst hj'; exact ⟨by omega, by omega⟩
  have hst1high : st1.buf (cap - 1) = nulC := by
    rw [hst1]
    by_cases hz : n = 0 ∧ st0.p > 0
    · have hgt : cap - 1 - 1 > 0 := hst0p ▸ hz.2
      rw [if_pos hz, wr_buf, hst0p, store_miss _ _ _ _ (by omega), hst0, wr_buf]
      exact store_hit _ _ _
    · rw [if_neg hz, hst0, wr_buf]
      exact store_hit _ _ _
  have hl_p : (hexLoop n st1).p ≤ cap - 2 := le_trans (hexLoop_p_le n st1) hst1p.1
  have hltr : ∀ j ∈ (hexLoop n st1).tr, 0 ≤ j ∧ j < cap := by
    intro j hj
    rcases hexLoop_tr n st1 j hj with hh | hh
    · exact hst1tr j hh
    · exact ⟨hh.1, by have := hst1p.1; omega⟩
  have hbufl : (hexLoop n st1).buf (cap - 1) = nulC := by
    rw [hexLoop_buf_high n st1 _ (by omega)]
    exact hst1high
  constructor
  · intro i hi
    by_cases hx : (hexLoop n st1).p > 0
    · rw [if_pos hx] at hi
      by_cases hz2 : (wr (hexLoop n st1) 'x').p ≥ 0
      · rw [if_pos hz2] at hi
        have hz2' : (hexLoop n st1).p - 1 ≥ 0 := hz2
        have hi' : i ∈ ((hexLoop n st1).tr ++ [(hexLoop n st1).p])
            ++ [(hexLoop n st1).p - 1] := hi
        rcases List.mem_append.mp hi' with hh | hh
        · rcases List.mem_append.mp hh with hh' | hh'
          · exact hltr i hh'
          · rw [List.mem_singleton] at hh'
            subst hh'; exact ⟨by omega, by omega⟩
        · rw [List.mem_singleton] at hh
          subst hh; exact ⟨by omega, by omega⟩
      · rw [if_neg hz2] at hi
        have hi' : i ∈ (hexLoop n st1).tr ++ [(hexLoop n st1).p] := hi
        rcases List.mem_append.mp hi' with hh | hh
        · exact hltr i hh
        · rw [List.mem_singleton] at hh
          subst hh; exact ⟨by omega, by omega⟩
    · rw [if_neg hx] at hi
      by_cases hz2 : (hexLoop n st1).p ≥ 0
      · rw [if_pos hz2] at hi
        have hi' : i ∈ (hexLoop n st1).tr ++ [(hexLoop n st1).p] := hi
        rcases List.mem_append.mp hi' with hh | hh
        · exact hltr i hh
        · rw [List.mem_singleton] at hh
          subst hh; exact ⟨by omega, by omega⟩
      · rw [if_neg hz2] at hi
        exact hltr i hi
  · by_cases hx : (hexLoop n st1).p > 0
    · rw [if_pos hx]
      by_cases hz2 : (wr (hexLoop n st1) 'x').p ≥ 0
      · rw [if_pos hz2, wr_buf, wr_p, wr_buf,
          store_miss _ _ _ _ (by omega), store_miss _ _ _ _ (by omega)]
        exact hbufl
      · rw [if_neg hz2, wr_buf, store_miss _ _ _ _ (by omega)]
        exact hbufl
    · rw [if_neg hx]
      by_cases hz2 : (hexLoop n st1).p ≥ 0
      · rw [if_pos hz2, wr_buf, store_miss _ _ _ _ (by omega)]
        exact hbufl
      · rw [if_neg hz2]
        exact hbufl

/-! ### Facts about the strings handed to `write` -/

theorem toInt32_range (x : Int) : -2 ^ 31 ≤ toInt32 x ∧ toInt32 x < 2 ^ 31 := by
  unfold toInt32
  constructor <;> omega

theorem int32Str_eq (v : Int) (h1 : -2 ^ 31 ≤ v) (h2 : v < 2 ^ 31) (h3 : v ≠ -2 ^ 31) :
    int32Str v = decChars v :=
  simple_itoa_out v junk h1 h2 h3

theorem int32Str_min : int32Str (-2 ^ 31) = ['-'] := by
  rw [show ((-2 ^ 31 : Int)) = -2147483648 from by norm_num]
  simp [int32Str, simple_itoa, itoaLoop, toInt32, wr, cstring, store, nulC, junk]

theorem uint64Str_eq (n : Nat) (h : n < 2 ^ 64) :
    uint64Str n = if n = 0 then ['0'] else natDecStr n :=
  simple_ulltoa_out n junk (by
    have : (2 : Nat) ^ 64 < 10 ^ 20 := by norm_num
    omega)

theorem ptrStr_eq (n : Nat) (h : n < 2 ^ 64) : ptrStr n = hexRender n :=
  simple_ptr_to_hex_out n junk (by
    have : (16 : Nat) ^ 16 = 2 ^ 64 := by norm_num
    omega)

theorem decChars_length_le (v : Int) (h1 : -2 ^ 31 ≤ v) (h2 : v < 2 ^ 31) :
    (decChars v).length ≤ 11 := by
  by_cases h0 : v = 0
  · subst h0
    rw [show decChars 0 = ['0'] from rfl]
    simp
  · have h31 : (2 : Int) ^ 31 = 2147483648 := by norm_num
    have hm10 : v.natAbs < 10 ^ 10 := by
      have : (2147483648 : Nat) < 10 ^ 10 := by norm_num
      omega
    have hL := natDigitsRev_len_le 10 v.natAbs hm10
    rw [decChars, if_neg h0]
    by_cases hneg : v < 0
    · rw [if_pos hneg]
      simp only [List.length_append, List.length_cons, List.length_nil, natDecStr_length]
      omega
    · rw [if_neg hneg]
      simp only [List.nil_append, natDecStr_length]
      omega

theorem decChars_length_pos (v : Int) : 0 < (decChars v).length := by
  by_cases h0 : v = 0
  · subst h0
    rw [show decChars 0 = ['0'] from rfl]
    simp
  · have hL1 : 0 < (natDigitsRev v.natAbs).length := natDigitsRev_len_pos _ (by omega)
    rw [decChars, if_neg h0]
    by_cases hneg : v < 0
    · rw [if_pos hneg]; simp
    · rw [if_neg hneg]
      simp only [List.nil_append, natDecStr_length]
      omega

theorem int32Str_length_le (v : Int) (h1 : -2 ^ 31 ≤ v) (h2 : v < 2 ^ 31) :
    (int32Str v).length ≤ 11 := by
  by_cases h3 : v = -2 ^ 31
  · subst h3; rw [int32Str_min]; simp
  · rw [int32Str_eq v h1 h2 h3]
    exact decChars_length_le v h1 h2

theorem int32Str_length_pos (v : Int) (h1 : -2 ^ 31 ≤ v) (h2 : v < 2 ^ 31) :
    0 < (int32Str v).length := by
  by_cases h3 : v = -2 ^ 31
  · subst h3; rw [int32Str_min]; simp
  · rw [int32Str_eq v h1 h2 h3]
    exact decChars_length_pos v

theorem uint64Str_length_le (n : Nat) (h : n < 2 ^ 64) : (uint64Str n).length ≤ 20 := by
  rw [uint64Str_eq n h]
  by_cases h0 : n = 0
  · rw [if_pos h0]; simp
  · rw [if_neg h0, natDecStr_length]
    exact natDigitsRev_len_le 20 n (by
      have : (2 : Nat) ^ 64 < 10 ^ 20 := by norm_num
      omega)

theorem uint64Str_length_pos (n : Nat) (h : n < 2 ^ 64) : 0 < (uint64Str n).length := by
  rw [uint64Str_eq n h]
  by_cases h0 : n = 0
  · rw [if_pos h0]; simp
  · rw [if_neg h0, natDecStr_length]
    exact natDigitsRev_len_pos n (by omega)

theorem hexRender_length_le (n : Nat) (h : n < 2 ^ 64) : (hexRender n).length ≤ 18 := by
  by_cases h0 : n = 0
  · subst h0; rw [show hexRender 0 = ['0', 'x', '0'] from rfl]; simp
  · rw [hexRender, if_neg h0]
    simp only [List.length_cons, natHexStr_length]
    have := hexDigitsRev_len_le 16 n (by
      have : (16 : Nat) ^ 16 = 2 ^ 64 := by norm_num
      omega)
    omega

theorem hexRender_length_ge (n : Nat) : 3 ≤ (hexRender n).length := by
  by_cases h0 : n = 0
  · subst h0; rw [show hexRender 0 = ['0', 'x', '0'] from rfl]; simp
  · rw [hexRender, if_neg h0]
    simp only [List.length_cons, natHexStr_length]
    have := hexDigitsRev_len_pos n (by omega)
    omega

theorem ptrStr_length_le (n : Nat) (h : n < 2 ^ 64) : (ptrStr n).length ≤ 18 := by
  rw [ptrStr_eq n h]; exact hexRender_length_le n h

theorem ptrStr_length_ge (n : Nat) (h : n < 2 ^ 64) : 3 ≤ (ptrStr n).length := by
  rw [ptrStr_eq n h]; exact hexRender_length_ge n

theorem hexRender_head (n : Nat) : (hexRender n).head? = some '0' := by
  by_cases h0 : n = 0
  · subst h0; rfl
  · rw [hexRender, if_neg h0]; rfl

/-- The most significant hex digit of a non-zero value is not `'0'`. -/
theorem natHexStr_head_ne_zero (n : Nat) (h : n ≠ 0) :
    ∃ d, 0 < d ∧ d < 16 ∧ (natHexStr n).head? = some (hexChars.getD d ' ') := by
  rw [natHexStr, List.head?_reverse]
  induction n using Nat.strong_induction_on with
  | _ n ih =>
    by_cases hlt : n < 16
    · refine ⟨n % 16, by omega, by omega, ?_⟩
      rw [hexDigitsRev_cons n h,
        show hexDigitsRev (n / 16) = [] from by
          rw [hexDigitsRev, if_pos (by omega)]]
      rfl
    · obtain ⟨d, hd0, hd16, hlast⟩ := ih (n / 16) (Nat.div_lt_self (by omega) (by omega))
        (by omega)
      refine ⟨d, hd0, hd16, ?_⟩
      rw [hexDigitsRev_cons n h, List.getLast?_cons, hlast]
      rfl

theorem natDecStr_head_digit (m : Nat) (hm : m ≠ 0) :
    ∃ d, d < 10 ∧ (natDecStr m).head? = some (dchar d) := by
  have hlen : 0 < (natDecStr m).length := by
    rw [natDecStr_length]
    exact natDigitsRev_len_pos m (by omega)
  obtain ⟨c, cs, hc⟩ : ∃ c cs, natDecStr m = c :: cs := by
    cases hcases : natDecStr m with
    | nil => rw [hcases] at hlen; simp at hlen
    | cons c cs => exact ⟨c, cs, rfl⟩
  have hcmem : c ∈ natDigitsRev m := by
    have : c ∈ natDecStr m := by rw [hc]; exact List.mem_cons_self c cs
    simpa [natDecStr] using this
  obtain ⟨d, hd, rfl⟩ := natDigitsRev_mem m c hcmem
  exact ⟨d, hd, by rw [hc]; rfl⟩

/-- The first character of `int32Str` is a minus sign or a digit, never a
space. -/
theorem int32Str_head (v : Int) (h1 : -2 ^ 31 ≤ v) (h2 : v < 2 ^ 31) :
    ∃ c, (int32Str v).head? = some c ∧ c ≠ ' ' := by
  by_cases h3 : v = -2 ^ 31
  · subst h3; rw [int32Str_min]
    exact ⟨'-', rfl, by decide⟩
  · rw [int32Str_eq v h1 h2 h3]
    by_cases h0 : v = 0
    · subst h0
      exact ⟨'0', rfl, by decide⟩
    · rw [decChars, if_neg h0]
      by_cases hneg : v < 0
      · rw [if_pos hneg]
        exact ⟨'-', rfl, by decide⟩
      · rw [if_neg hneg]
        obtain ⟨d, hd, hh⟩ := natDecStr_head_digit v.natAbs (by omega)
        exact ⟨dchar d, by rw [List.nil_append]; exact hh, (dchar_facts d hd).2.2.2⟩

theorem uint64Str_head (n : Nat) (h : n < 2 ^ 64) :
    ∃ c, (uint64Str n).head? = some c ∧ c ≠ ' ' := by
  rw [uint64Str_eq n h]
  by_cases h0 : n = 0
  · rw [if_pos h0]
    exact ⟨'0', rfl, by decide⟩
  · rw [if_neg h0]
    obtain ⟨d, hd, hh⟩ := natDecStr_head_digit n h0
    exact ⟨dchar d, hh, (dchar_facts d hd).2.2.2⟩

theorem ne_of_head_ne (l l' : List Char) (h : l.head? ≠ l'.head?) : l ≠ l' :=
  fun he => h (by rw [he])

theorem ne_of_length_ne (l l' : List Char) (h : l.length ≠ l'.length) : l ≠ l' :=
  fun he => h (by rw [he])

theorem isFrameStart_int32Str (v : Int) (h1 : -2 ^ 31 ≤ v) (h2 : v < 2 ^ 31) :
    isFrameStart (int32Str v) = false := by
  obtain ⟨c, hc, hcs⟩ := int32Str_head v h1 h2
  rw [isFrameStart]
  rw [Bool.or_eq_false_iff]
  constructor <;> rw [decide_eq_false_iff_not]
  · exact ne_of_head_ne _ _ (by rw [hc]; intro hcon; exact hcs (by
      have : some c = some ' ' := by rw [hcon]; rfl
      exact Option.some.inj this))
  · exact ne_of_head_ne _ _ (by rw [hc]; intro hcon; exact hcs (by
      have : some c = some ' ' := by rw [hcon]; rfl
      exact Option.some.inj this))

theorem isFrameStart_uint64Str (n : Nat) (h : n < 2 ^ 64) :
    isFrameStart (uint64Str n) = false := by
  obtain ⟨c, hc, hcs⟩ := uint64Str_head n h
  rw [isFrameStart, Bool.or_eq_false_iff]
  constructor <;> rw [decide_eq_false_iff_not]
  · exact ne_of_head_ne _ _ (by rw [hc]; intro hcon; exact hcs (by
      have : some c = some ' ' := by rw [hcon]; rfl
      exact Option.some.inj this))
  · exact ne_of_head_ne _ _ (by rw [hc]; intro hcon; exact hcs (by
      have : some c = some ' ' := by rw [hcon]; rfl
      exact Option.some.inj this))

theorem isFrameStart_ptrStr (n : Nat) (h : n < 2 ^ 64) :
    isFrameStart (ptrStr n) = false := by
  rw [isFrameStart, Bool.or_eq_false_iff]
  constructor <;> rw [decide_eq_false_iff_not]
  · exact ne_of_head_ne _ _ (by
      rw [ptrStr_eq n h, hexRender_head]
      decide)
  · exact ne_of_head_ne _ _ (by
      rw [ptrStr_eq n h, hexRender_head]
      decide)

/-! ### Composer lemmas -/

theorem succW_apply (i : Nat) (s : List Char) : succW i s = (s.length : Int) := rfl

theorem doWrite_calls (w : Oracle) (s : List Char) (st : WSt) :
    (doWrite w s st).calls = st.calls ++ [s] := rfl

theorem doWrite_idx (w : Oracle) (s : List Char) (st : WSt) :
    (doWrite w s st).idx = st.idx + 1 := rfl

theorem doWrite_total (w : Oracle) (s : List Char) (st : WSt) :
    (doWrite w s st).total
      = st.total + (if w st.idx s > 0 then w st.idx s else 0) := by
  show (if w st.idx s > 0 then st.total + w st.idx s else st.total) = _
  by_cases h : w st.idx s > 0
  · rw [if_pos h, if_pos h]
  · rw [if_neg h, if_neg h]; omega

theorem doWrite_total_le (w : Oracle) (s : List Char) (st : WSt) :
    st.total ≤ (doWrite w s st).total := by
  rw [doWrite_total]
  by_cases h : w st.idx s > 0
  · rw [if_pos h]; omega
  · rw [if_neg h]; omega

theorem sumPos_append (w : Oracle) (l1 l2 : List (List Char)) : ∀ i,
    sumPos w i (l1 ++ l2) = sumPos w i l1 + sumPos w (i + l1.length) l2 := by
  induction l1 with
  | nil => intro i; simp [sumPos]
  | cons s r ih =>
    intro i
    simp only [List.cons_append, sumPos, List.length_cons, List.append_eq]
    rw [ih (i + 1)]
    have : i + 1 + r.length = i + (r.length + 1) := by omega
    rw [this]
    ring

theorem doWrite_inv (w : Oracle) (s : List Char) (st : WSt) (h : WInv w st) :
    WInv w (doWrite w s st) := by
  obtain ⟨h1, h2⟩ := h
  constructor
  · rw [doWrite_idx, doWrite_calls, List.length_append, h1]
    rfl
  · rw [doWrite_total, doWrite_calls, sumPos_append, h2, h1, Nat.zero_add]
    show _ = _ + ((if w st.calls.length s > 0 then w st.calls.length s else 0) + 0)
    omega

theorem emitFrame_calls (w : Oracle) (f : Nat) (st : WSt) :
    (emitFrame w f st).calls = st.calls ++ frameCalls f := by
  rw [emitFrame, frameCalls]
  by_cases hf : f ≠ 0
  · rw [if_pos hf, if_pos hf, doWrite_calls, doWrite_calls, doWrite_calls]
    simp
  · rw [if_neg hf, if_neg hf, doWrite_calls]

theorem emitFrame_inv (w : Oracle) (f : Nat) (st : WSt) (h : WInv w st) :
    WInv w (emitFrame w f st) := by
  rw [emitFrame]
  by_cases hf : f ≠ 0
  · rw [if_pos hf]
    exact doWrite_inv _ _ _ (doWrite_inv _ _ _ (doWrite_inv _ _ _ h))
  · rw [if_neg hf]
    exact doWrite_inv _ _ _ h

theorem emitFrame_total_le (w : Oracle) (f : Nat) (st : WSt) :
    st.total ≤ (emitFrame w f st).total := by
  rw [emitFrame]
  by_cases hf : f ≠ 0
  · rw [if_pos hf]
    calc st.total ≤ (doWrite w "  ".toList st).total := doWrite_total_le _ _ _
      _ ≤ (doWrite w (ptrStr f) (doWrite w "  ".toList st)).total := doWrite_total_le _ _ _
      _ ≤ _ := doWrite_total_le _ _ _
  · rw [if_neg hf]
    exact doWrite_total_le _ _ _

theorem frameLoop_inv : ∀ (m : Nat) (w : Oracle) (frames : Nat → Nat) (fc : Int) (i : Nat)
    (st : WSt), (fc - i).toNat = m → WInv w st → WInv w (frameLoop w frames fc i st) := by
  intro m
  induction m using Nat.strong_induction_on with
  | _ m ih =>
    intro w frames fc i st hm h
    rw [frameLoop]
    by_cases hg : (i : Int) < fc
    · rw [if_pos hg]
      have h' := emitFrame_inv w (frames i) st h
      by_cases hb : (emitFrame w (frames i) st).total > 4000
      · rw [if_pos hb]; exact h'
      · rw [if_neg hb]
        exact ih ((fc - (i + 1)).toNat) (by omega) w frames fc (i + 1) _ rfl h'
    · rw [if_neg hg]; exact h

theorem frameLoop_total_le : ∀ (m : Nat) (w : Oracle) (frames : Nat → Nat) (fc : Int)
    (i : Nat) (st : WSt), (fc - i).toNat = m →
    st.total ≤ (frameLoop w frames fc i st).total := by
  intro m
  induction m using Nat.strong_induction_on with
  | _ m ih =>
    intro w frames fc i st hm
    rw [frameLoop]
    by_cases hg : (i : Int) < fc
    · rw [if_pos hg]
      have h1 := emitFrame_total_le w (frames i) st
      by_cases hb : (emitFrame w (frames i) st).total > 4000
      · rw [if_pos hb]; exact h1
      · rw [if_neg hb]
        have h2 := ih ((fc - (i + 1)).toNat) (by omega) w frames fc (i + 1)
          (emitFrame w (frames i) st) rfl
        omega
    · rw [if_neg hg]

theorem frameLoop_calls : ∀ (m : Nat) (w : Oracle) (frames : Nat → Nat) (fc : Int)
    (i : Nat) (st : WSt), (fc - i).toNat = m →
    ∃ mid, (frameLoop w frames fc i st).calls = st.calls ++ mid ∧
      ∀ s ∈ mid, ∃ j, s ∈ frameCalls (frames j) := by
  intro m
  induction m using Nat.strong_induction_on with
  | _ m ih =>
    intro w frames fc i st hm
    rw [frameLoop]
    by_cases hg : (i : Int) < fc
    · rw [if_pos hg]
      by_cases hb : (emitFrame w (frames i) st).total > 4000
      · rw [if_pos hb]
        refine ⟨frameCalls (frames i), emitFrame_calls w (frames i) st, ?_⟩
        intro s hs; exact ⟨i, hs⟩
      · rw [if_neg hb]
        obtain ⟨mid, hmid, hmem⟩ := ih ((fc - (i + 1)).toNat) (by omega) w frames fc
          (i + 1) (emitFrame w (frames i) st) rfl
        refine ⟨frameCalls (frames i) ++ mid, ?_, ?_⟩
        · rw [hmid, emitFrame_calls, List.append_assoc]
        · intro s hs
          rcases List.mem_append.mp hs with hs | hs
          · exact ⟨i, hs⟩
          · exact hmem s hs
    · rw [if_neg hg]
      exact ⟨[], by simp, by intro s hs; simp at hs⟩

theorem lineChars_length_le (f : Nat) (hf : f < 2 ^ 64) : (lineChars f).length ≤ 21 := by
  rw [lineChars]
  by_cases h0 : f ≠ 0
  · rw [if_pos h0]
    simp only [List.length_append]
    have := ptrStr_length_le f hf
    have h2 : ("  ".toList).length = 2 := rfl
    have h3 : ("\n".toList).length = 1 := rfl
    omega
  · rw [if_neg h0]
    decide

theorem lineChars_length_pos (f : Nat) (hf : f < 2 ^ 64) : 0 < (lineChars f).length := by
  rw [lineChars]
  by_cases h0 : f ≠ 0
  · rw [if_pos h0]
    simp only [List.length_append]
    have := ptrStr_length_ge f hf
    omega
  · rw [if_neg h0]
    decide

theorem frameCalls_length_le (f : Nat) (hf : f < 2 ^ 64) :
    ∀ s ∈ frameCalls f, s.length ≤ 21 := by
  intro s hs
  rw [frameCalls] at hs
  by_cases h0 : f ≠ 0
  · rw [if_pos h0] at hs
    rcases List.mem_cons.mp hs with hs | hs
    · subst hs; decide
    · rcases List.mem_cons.mp hs with hs | hs
      · subst hs; exact le_trans (ptrStr_length_le f hf) (by omega)
      · rw [List.mem_singleton] at hs
        subst hs; decide
  · rw [if_neg h0] at hs
    rw [List.mem_singleton] at hs
    subst hs; decide

theorem emitFrame_succ_total (f : Nat) (st : WSt) (hf : f < 2 ^ 64) :
    (emitFrame succW f st).total = st.total + ((lineChars f).length : Int) := by
  rw [emitFrame, lineChars]
  by_cases h0 : f ≠ 0
  · rw [if_pos h0, if_pos h0, doWrite_total, doWrite_total, doWrite_total]
    rw [succW_apply, succW_apply, succW_apply]
    have hp : 0 < (ptrStr f).length := by
      have := ptrStr_length_ge f hf
      omega
    rw [if_pos (show ((("  ".toList : List Char)).length : Int) > 0 from by decide),
      if_pos (show (((ptrStr f).length : Int)) > 0 from by exact_mod_cast hp),
      if_pos (show ((("\n".toList : List Char)).length : Int) > 0 from by decide)]
    simp only [List.length_append]
    push_cast
    ring
  · rw [if_neg h0, if_neg h0, doWrite_total, succW_apply]
    rw [if_pos (show (((nilLine : List Char)).length : Int) > 0 from by decide)]

theorem isFrameStart_indent : isFrameStart "  ".toList = true := by decide

theorem isFrameStart_nilLine : isFrameStart nilLine = true := by decide

theorem emitFrame_countP (w : Oracle) (f : Nat) (st : WSt) (hf : f < 2 ^ 64) :
    List.countP isFrameStart (emitFrame w f st).calls
      = List.countP isFrameStart st.calls + 1 := by
  rw [emitFrame_calls, List.countP_append]
  have h : List.countP isFrameStart (frameCalls f) = 1 := by
    rw [frameCalls]
    by_cases h0 : f ≠ 0
    · rw [if_pos h0, List.countP_cons, List.countP_cons, List.countP_cons,
        List.countP_nil, isFrameStart_indent, isFrameStart_ptrStr f hf,
        show isFrameStart ("\n".toList) = false from by decide]
      simp
    · rw [if_neg h0, List.countP_cons, List.countP_nil, isFrameStart_nilLine]
      simp
  rw [h]

theorem sumLines_unfold (frames : Nat → Nat) (i m : Nat) :
    sumLines frames i m
      = if i < m then ((lineChars (frames i)).length : Int) + sumLines frames (i + 1) m
        else 0 := by
  rw [sumLines]

theorem sumLines_nonneg (frames : Nat → Nat) : ∀ (k i m : Nat), m - i = k →
    0 ≤ sumLines frames i m := by
  intro k
  induction k using Nat.strong_induction_on with
  | _ k ih =>
    intro i m hk
    rw [sumLines_unfold]
    by_cases h : i < m
    · rw [if_pos h]
      have := ih (m - (i + 1)) (by omega) (i + 1) m rfl
      have hl : (0 : Int) ≤ (lineChars (frames i)).length := by positivity
      omega
    · rw [if_neg h]

/-- With fully succeeding writes the loop keeps the total below
`4000 + 21` (one frame line can be written after the bound is reached). -/
theorem frameLoop_succ_bound : ∀ (m : Nat) (frames : Nat → Nat) (fc : Int) (i : Nat)
    (st : WSt), (fc - i).toNat = m →
    (∀ j, frames j < 2 ^ 64) →
    st.total ≤ 4000 →
    (frameLoop succW frames fc i st).total ≤ 4021 := by
  intro m
  induction m using Nat.strong_induction_on with
  | _ m ih =>
    intro frames fc i st hm hfr hst
    rw [frameLoop]
    by_cases hg : (i : Int) < fc
    · rw [if_pos hg]
      have htot : (emitFrame succW (frames i) st).total
          = st.total + ((lineChars (frames i)).length : Int) :=
        emitFrame_succ_total (frames i) st (hfr i)
      have hlen : ((lineChars (frames i)).length : Int) ≤ 21 := by
        exact_mod_cast lineChars_length_le (frames i) (hfr i)
      by_cases hb : (emitFrame succW (frames i) st).total > 4000
      · rw [if_pos hb]; omega
      · rw [if_neg hb]
        exact ih ((fc - (i + 1)).toNat) (by omega) frames fc (i + 1) _ rfl hfr (by omega)
    · rw [if_neg hg]; omega

/-- With fully succeeding writes, if the remaining lines other than the last
would push the total over `4000`, the loop runs out of budget before the
last remaining frame: at most `m - i` of the frames `i, …, fc-1` are
emitted (where `m = fc.toNat - 1`). -/
theorem frameLoop_succ_stop : ∀ (k : Nat) (frames : Nat → Nat) (fc : Int) (i : Nat)
    (st : WSt), (fc - i).toNat = k →
    2 ≤ fc →
    (∀ j, frames j < 2 ^ 64) →
    st.total ≤ 4000 →
    st.total + sumLines frames i (fc.toNat - 1) > 4000 →
    List.countP isFrameStart (frameLoop succW frames fc i st).calls
      ≤ List.countP isFrameStart st.calls + ((fc.toNat - 1) - i) := by
  intro k
  induction k using Nat.strong_induction_on with
  | _ k ih =>
    intro frames fc i st hk hfc hfr hst hsum
    have hiM : i < fc.toNat - 1 := by
      by_contra hcon
      rw [sumLines_unfold, if_neg (by omega)] at hsum
      omega
    rw [frameLoop, if_pos (show (i : Int) < fc from by omega)]
    have htot : (emitFrame succW (frames i) st).total
        = st.total + ((lineChars (frames i)).length : Int) :=
      emitFrame_succ_total (frames i) st (hfr i)
    have hcnt := emitFrame_countP succW (frames i) st (hfr i)
    by_cases hb : (emitFrame succW (frames i) st).total > 4000
    · rw [if_pos hb, hcnt]
      omega
    · rw [if_neg hb]
      have hsum' : (emitFrame succW (frames i) st).total
          + sumLines frames (i + 1) (fc.toNat - 1) > 4000 := by
        rw [htot]
        rw [sumLines_unfold, if_pos (by omega)] at hsum
        omega
      have := ih ((fc - (i + 1)).toNat) (by omega) frames fc (i + 1)
        (emitFrame succW (frames i) st) rfl hfc hfr (by omega) hsum'
      rw [hcnt] at this
      omega

/-- Unfolding the composer for a valid destination. -/
theorem composer_unfold (w : Oracle) (fd : Int) (sig ts : Int) (tid : Nat)
    (frames : Nat → Nat) (fc : Int) (hfd : 0 ≤ fd) :
    write_minimal_crash_info_c w fd sig ts tid frames fc
      = ((if (doWrite w endMarker (frameLoop w frames fc 0
            (headerSt w sig ts tid fc))).total > 0
          then (doWrite w endMarker (frameLoop w frames fc 0
            (headerSt w sig ts tid fc))).total
          else -1),
         doWrite w endMarker (frameLoop w frames fc 0 (headerSt w sig ts tid fc))) := by
  simp only [write_minimal_crash_info_c]
  rw [if_neg (by omega)]
  rfl

theorem headerSt_calls (w : Oracle) (sig ts : Int) (tid : Nat) (fc : Int) :
    (headerSt w sig ts tid fc).calls = headerCalls sig ts tid fc := rfl

theorem headerSt_inv (w : Oracle) (sig ts : Int) (tid : Nat) (fc : Int) :
    WInv w (headerSt w sig ts tid fc) := by
  have h0 : WInv w ⟨0, [], 0⟩ := ⟨rfl, rfl⟩
  exact doWrite_inv _ _ _ (doWrite_inv _ _ _ (doWrite_inv _ _ _ (doWrite_inv _ _ _
    (doWrite_inv _ _ _ (doWrite_inv _ _ _ (doWrite_inv _ _ _ (doWrite_inv _ _ _
      (doWrite_inv _ _ _ h0))))))))

theorem sumPos_succW : ∀ (l : List (List Char)) (i : Nat),
    sumPos succW i l = (l.map (fun s => (s.length : Int))).sum := by
  intro l
  induction l with
  | nil => intro i; rfl
  | cons s r ih =>
    intro i
    show (if succW i s > 0 then succW i s else 0) + sumPos succW (i + 1) r = _
    rw [succW_apply, ih (i + 1)]
    simp only [List.map_cons, List.sum_cons]
    by_cases h : ((s.length : Int)) > 0
    · rw [if_pos h]
    · rw [if_neg h]
      omega

theorem headerSt_succ_total (sig ts : Int) (tid : Nat) (fc : Int) :
    (headerSt succW sig ts tid fc).total = headerLen sig ts tid fc := by
  have := (headerSt_inv succW sig ts tid fc).2
  rw [this, headerSt_calls, sumPos_succW, headerLen]

theorem headerLen_bounds (sig ts : Int) (tid : Nat) (fc : Int)
    (hs1 : -2 ^ 31 ≤ sig) (hs2 : sig < 2 ^ 31) (htid : tid < 2 ^ 64) :
    0 < headerLen sig ts tid fc ∧ headerLen sig ts tid fc ≤ 124 := by
  have h1 := int32Str_length_le sig hs1 hs2
  have h1' := int32Str_length_pos sig hs1 hs2
  have h2 := int32Str_length_le (toInt32 ts) (toInt32_range ts).1 (toInt32_range ts).2
  have h3 := uint64Str_length_le tid htid
  have h4 := int32Str_length_le (toInt32 fc) (toInt32_range fc).1 (toInt32_range fc).2
  rw [headerLen, headerCalls]
  simp only [List.map_cons, List.map_nil, List.sum_cons, List.sum_nil]
  have e1 : (("Signal: ".toList : List Char)).length = 8 := rfl
  have e2 : (("\nTimestamp: ".toList : List Char)).length = 12 := rfl
  have e3 : (("\nThreadID: ".toList : List Char)).length = 11 := rfl
  have e4 : (("\nFrames_count: ".toList : List Char)).length = 15 := rfl
  have e5 : (("\nFrames (raw addresses):\n".toList : List Char)).length = 25 := rfl
  rw [e1, e2, e3, e4, e5]
  constructor <;> push_cast <;> omega

theorem countP_headerCalls (sig ts : Int) (tid : Nat) (fc : Int)
    (hs1 : -2 ^ 31 ≤ sig) (hs2 : sig < 2 ^ 31) (htid : tid < 2 ^ 64) :
    List.countP isFrameStart (headerCalls sig ts tid fc) = 0 := by
  rw [headerCalls, List.countP_cons, List.countP_cons, List.countP_cons,
    List.countP_cons, List.countP_cons, List.countP_cons, List.countP_cons,
    List.countP_cons, List.countP_cons, List.countP_nil,
    isFrameStart_int32Str sig hs1 hs2,
    isFrameStart_int32Str (toInt32 ts) (toInt32_range ts).1 (toInt32_range ts).2,
    isFrameStart_uint64Str tid htid,
    isFrameStart_int32Str (toInt32 fc) (toInt32_range fc).1 (toInt32_range fc).2,
    show isFrameStart ("Signal: ".toList) = false from by decide,
    show isFrameStart ("\nTimestamp: ".toList) = false from by decide,
    show isFrameStart ("\nThreadID: ".toList) = false from by decide,
    show isFrameStart ("\nFrames_count: ".toList) = false from by decide,
    show isFrameStart ("\nFrames (raw addresses):\n".toList) = false from by decide]
  simp

theorem endMarker_not_mem_headerCalls (sig ts : Int) (tid : Nat) (fc : Int)
    (hs1 : -2 ^ 31 ≤ sig) (hs2 : sig < 2 ^ 31) (htid : tid < 2 ^ 64) :
    endMarker ∉ headerCalls sig ts tid fc := by
  intro hmem
  have hlen : ∀ s ∈ headerCalls sig ts tid fc, s.length ≠ 29 := by
    intro u hu
    rw [headerCalls] at hu
    simp only [List.mem_cons, List.not_mem_nil, or_false] at hu
    have l1 := int32Str_length_le sig hs1 hs2
    have l2 := int32Str_length_le (toInt32 ts) (toInt32_range ts).1 (toInt32_range ts).2
    have l3 := uint64Str_length_le tid htid
    have l4 := int32Str_length_le (toInt32 fc) (toInt32_range fc).1 (toInt32_range fc).2
    rcases hu with h | h | h | h | h | h | h | h | h <;> subst h <;>
      first
        | (show (8 : Nat) ≠ 29; omega)
        | (show (12 : Nat) ≠ 29; omega)
        | (show (11 : Nat) ≠ 29; omega)
        | (show (15 : Nat) ≠ 29; omega)
        | (show (25 : Nat) ≠ 29; omega)
        | omega
  have := hlen endMarker hmem
  exact this (by rfl)

theorem frameCalls_ne_endMarker (f : Nat) (hf : f < 2 ^ 64) :
    ∀ s ∈ frameCalls f, s ≠ endMarker := by
  intro s hs
  have hlen := frameCalls_length_le f hf s hs
  exact ne_of_length_ne s endMarker (by
    rw [show (endMarker : List Char).length = 29 from rfl]
    omega)

/-! ### The claims -/

/-- C2: with a negative destination the composer performs no writes and
returns `-1` immediately; with a non-negative destination it attempts all
nine header writes and the end marker regardless of intermediate results,
accumulates exactly the positive results, and returns the total when
positive and `-1` otherwise. -/
theorem C2_return_contract (w : Oracle) (sig ts : Int) (tid : Nat)
    (frames : Nat → Nat) (fc : Int) (fd : Int) :
    (fd < 0 → write_minimal_crash_info_c w fd sig ts tid frames fc = (-1, ⟨0, [], 0⟩)) ∧
    (0 ≤ fd →
      (∃ mid, (write_minimal_crash_info_c w fd sig ts tid frames fc).2.calls
          = headerCalls sig ts tid fc ++ mid ++ [endMarker]) ∧
      (write_minimal_crash_info_c w fd sig ts tid frames fc).2.total
        = sumPos w 0 (write_minimal_crash_info_c w fd sig ts tid frames fc).2.calls ∧
      (write_minimal_crash_info_c w fd sig ts tid frames fc).1
        = (if (write_minimal_crash_info_c w fd sig ts tid frames fc).2.total > 0
           then (write_minimal_crash_info_c w fd sig ts tid frames fc).2.total
           else -1)) := by
  constructor
  · intro h
    simp only [write_minimal_crash_info_c]
    rw [if_pos h]
  · intro h
    rw [composer_unfold w fd sig ts tid frames fc h]
    refine ⟨?_, ?_, rfl⟩
    · obtain ⟨mid, hmid, _⟩ := frameLoop_calls ((fc - 0).toNat) w frames fc 0
        (headerSt w sig ts tid fc) rfl
      exact ⟨mid, by rw [doWrite_calls, hmid, headerSt_calls]⟩
    · have hinv := doWrite_inv w endMarker _
        (frameLoop_inv ((fc - 0).toNat) w frames fc 0 _ rfl (headerSt_inv w sig ts tid fc))
      exact hinv.2

/-- C2 witness: invalid destination at `-1`; header/end structure at `1`. -/
theorem C2_return_contract_witness :
    write_minimal_crash_info_c succW (-1) 0 0 0 (fun _ => 0) 0 = (-1, ⟨0, [], 0⟩) ∧
    (∃ mid, (write_minimal_crash_info_c succW 1 0 0 0 (fun _ => 0) 0).2.calls
        = headerCalls 0 0 0 0 ++ mid ++ [endMarker]) :=
  ⟨(C2_return_contract succW 0 0 0 (fun _ => 0) 0 (-1)).1 (by norm_num),
   ((C2_return_contract succW 0 0 0 (fun _ => 0) 0 1).2 (by norm_num)).1⟩

/-- C4 counterexample: at capacity `0` the claim fails — `simple_itoa`
writes the NUL terminator at offset `-1`, outside the first `0` bytes of
the buffer. -/
theorem C4_counterexample :
    ¬ (∀ i ∈ (simple_itoa 5 junk 0).2.tr, 0 ≤ i ∧ i < 0) := by
  intro h
  have hmem : (-1 : Int) ∈ (simple_itoa 5 junk 0).2.tr := by
    simp [simple_itoa, itoaLoop, wr, junk]
  have := h (-1) hmem
  omega

/-- C4 (amended to capacities `≥ 1`): each converter writes only within the
first `cap` bytes and leaves a NUL terminator inside the buffer. -/
theorem C4_converters_bounded (cap : Int) (hcap : 1 ≤ cap) (v : Int) (n p : Nat)
    (b1 b2 b3 : Buf) :
    ((∀ i ∈ (simple_itoa v b1 cap).2.tr, 0 ≤ i ∧ i < cap) ∧
      ∃ j, 0 ≤ j ∧ j < cap ∧ (simple_itoa v b1 cap).2.buf j = nulC) ∧
    ((∀ i ∈ (simple_ulltoa n b2 cap).2.tr, 0 ≤ i ∧ i < cap) ∧
      ∃ j, 0 ≤ j ∧ j < cap ∧ (simple_ulltoa n b2 cap).2.buf j = nulC) ∧
    ((∀ i ∈ (simple_ptr_to_hex p b3 cap).2.tr, 0 ≤ i ∧ i < cap) ∧
      ∃ j, 0 ≤ j ∧ j < cap ∧ (simple_ptr_to_hex p b3 cap).2.buf j = nulC) := by
  obtain ⟨h1a, h1b⟩ := simple_itoa_safe v b1 cap hcap
  obtain ⟨h2a, h2b⟩ := simple_ulltoa_safe n b2 cap hcap
  obtain ⟨h3a, h3b⟩ := simple_ptr_to_hex_safe p b3 cap hcap
  exact ⟨⟨h1a, cap - 1, by omega, by omega, h1b⟩,
    ⟨h2a, cap - 1, by omega, by omega, h2b⟩,
    ⟨h3a, cap - 1, by omega, by omega, h3b⟩⟩

/-- C4 witness: the three converters at capacity 12. -/
theorem C4_converters_bounded_witness :
    ((∀ i ∈ (simple_itoa (-42) junk 12).2.tr, 0 ≤ i ∧ i < 12) ∧
      ∃ j, 0 ≤ j ∧ j < 12 ∧ (simple_itoa (-42) junk 12).2.buf j = nulC) ∧
    ((∀ i ∈ (simple_ulltoa 7 junk 12).2.tr, 0 ≤ i ∧ i < 12) ∧
      ∃ j, 0 ≤ j ∧ j < 12 ∧ (simple_ulltoa 7 junk 12).2.buf j = nulC) ∧
    ((∀ i ∈ (simple_ptr_to_hex 255 junk 12).2.tr, 0 ≤ i ∧ i < 12) ∧
      ∃ j, 0 ≤ j ∧ j < 12 ∧ (simple_ptr_to_hex 255 junk 12).2.buf j = nulC) :=
  C4_converters_bounded 12 (by norm_num) (-42) 7 255 junk junk junk

/-- C5: for every `int32_t` value except `INT32_MIN`, rendering with
`simple_itoa` into the 12-byte buffer of `write_int32_val` and parsing the
NUL-terminated result back yields the value. -/
theorem C5_int32_roundtrip (v : Int) (b : Buf) (h1 : -2 ^ 31 ≤ v) (h2 : v < 2 ^ 31)
    (h3 : v ≠ -2 ^ 31) :
    parseDec (cstring (simple_itoa v b 12).2.buf (simple_itoa v b 12).1 12) = v := by
  rw [simple_itoa_out v b h1 h2 h3]
  exact parseDec_decChars v

/-- C5 witness at `-123`. -/
theorem C5_int32_roundtrip_witness :
    parseDec (cstring (simple_itoa (-123) junk 12).2.buf (simple_itoa (-123) junk 12).1 12)
      = -123 :=
  C5_int32_roundtrip (-123) junk (by norm_num) (by norm_num) (by norm_num)

/-- C6: for every unsigned 64-bit value, rendering with `simple_ulltoa` into
the 21-byte buffer of `write_uint64_val` and parsing the result back yields
the value. -/
theorem C6_uint64_roundtrip (n : Nat) (b : Buf) (h : n < 2 ^ 64) :
    parseNat (cstring (simple_ulltoa n b 21).2.buf (simple_ulltoa n b 21).1 21) = n := by
  rw [simple_ulltoa_out n b (by
    have : (2 : Nat) ^ 64 < 10 ^ 20 := by norm_num
    omega)]
  by_cases h0 : n = 0
  · subst h0
    rw [if_pos rfl]
    rfl
  · rw [if_neg h0]
    exact parseNat_natDecStr n

/-- C6 witness at `123456789012`. -/
theorem C6_uint64_roundtrip_witness :
    parseNat (cstring (simple_ulltoa 123456789012 junk 21).2.buf
      (simple_ulltoa 123456789012 junk 21).1 21) = 123456789012 :=
  C6_uint64_roundtrip 123456789012 junk (by norm_num)

/-- C7: the pointer converter output (19-byte buffer of `write_ptr_val`)
always begins with `0x`; zero renders exactly `0x0`; a non-zero value
renders `0x` followed by its hex digits, most significant first, with a
non-zero leading digit. -/
theorem C7_ptr_hex_format (n : Nat) (b : Buf) (h : n < 2 ^ 64) :
    (cstring (simple_ptr_to_hex n b 19).2.buf (simple_ptr_to_hex n b 19).1 19).take 2
        = ['0', 'x'] ∧
    (n = 0 → cstring (simple_ptr_to_hex n b 19).2.buf (simple_ptr_to_hex n b 19).1 19
        = ['0', 'x', '0']) ∧
    (n ≠ 0 → cstring (simple_ptr_to_hex n b 19).2.buf (simple_ptr_to_hex n b 19).1 19
        = '0' :: 'x' :: natHexStr n ∧
      ∀ c, (natHexStr n).head? = some c → c ≠ '0') := by
  have h16 : n < 16 ^ 16 := by
    have : (16 : Nat) ^ 16 = 2 ^ 64 := by norm_num
    omega
  have hout := simple_ptr_to_hex_out n b h16
  refine ⟨?_, ?_, ?_⟩
  · rw [hout]
    by_cases h0 : n = 0
    · subst h0; rfl
    · rw [hexRender, if_neg h0]; rfl
  · intro h0; subst h0; rw [hout]; rfl
  · intro h0
    refine ⟨by rw [hout, hexRender, if_neg h0], ?_⟩
    intro c hc
    obtain ⟨d, hd0, hd16, hh⟩ := natHexStr_head_ne_zero n h0
    rw [hh] at hc
    have : c = hexChars.getD d ' ' := (Option.some.inj hc).symm
    rw [this]
    exact hexChar_ne_zeroChar d hd0 hd16

/-- C7 witness at `0xDEADBEEF` and `0`. -/
theorem C7_ptr_hex_format_witness :
    (cstring (simple_ptr_to_hex 0xDEADBEEF junk 19).2.buf
        (simple_ptr_to_hex 0xDEADBEEF junk 19).1 19).take 2 = ['0', 'x'] ∧
    ((0 : Nat) = 0 → cstring (simple_ptr_to_hex 0 junk 19).2.buf
        (simple_ptr_to_hex 0 junk 19).1 19 = ['0', 'x', '0']) :=
  ⟨(C7_ptr_hex_format 0xDEADBEEF junk (by norm_num)).1,
   (C7_ptr_hex_format 0 junk (by norm_num)).2.1⟩

/-- C8: the Timestamp field is the rendering of the timestamp narrowed to
`int32_t` (the fourth string handed to `write`), and for any timestamp
whose narrowed value is not `INT32_MIN` it parses back to the narrowed —
not the original — value. -/
theorem C8_timestamp_narrowed (w : Oracle) (fd sig ts : Int) (tid : Nat)
    (frames : Nat → Nat) (fc : Int) (hfd : 0 ≤ fd) :
    (write_minimal_crash_info_c w fd sig ts tid frames fc).2.calls.get? 3
        = some (int32Str (toInt32 ts)) ∧
    (toInt32 ts ≠ -2 ^ 31 → parseDec (int32Str (toInt32 ts)) = toInt32 ts) := by
  constructor
  · rw [composer_unfold w fd sig ts tid frames fc hfd, doWrite_calls]
    obtain ⟨mid, hmid, _⟩ := frameLoop_calls ((fc - 0).toNat) w frames fc 0
      (headerSt w sig ts tid fc) rfl
    rw [hmid, headerSt_calls, List.append_assoc,
      List.get?_append (by rw [headerCalls]; norm_num)]
    rfl
  · intro h
    rw [int32Str_eq _ (toInt32_range ts).1 (toInt32_range ts).2 h]
    exact parseDec_decChars _

/-- C8 witness: timestamp `2^32 + 7` narrows to `7`. -/
theorem C8_timestamp_narrowed_witness :
    (write_minimal_crash_info_c succW 1 0 (2 ^ 32 + 7) 0 (fun _ => 0) 0).2.calls.get? 3
        = some (int32Str (toInt32 (2 ^ 32 + 7))) ∧
    parseDec (int32Str (toInt32 (2 ^ 32 + 7))) = toInt32 (2 ^ 32 + 7) ∧
    toInt32 (2 ^ 32 + 7) = 7 :=
  ⟨(C8_timestamp_narrowed succW 1 0 (2 ^ 32 + 7) 0 (fun _ => 0) 0 (by norm_num)).1,
   (C8_timestamp_narrowed succW 1 0 (2 ^ 32 + 7) 0 (fun _ => 0) 0 (by norm_num)).2
     (by unfold toInt32; norm_num),
   by unfold toInt32; norm_num⟩

/-- C9: on every `int32_t` value except `INT32_MIN`,
`minimal_itoa_for_signals` and `simple_itoa` leave the same NUL-terminated
string in their 12-byte buffers. -/
theorem C9_duplicate_converters_agree (v : Int) (b b' : Buf) (h1 : -2 ^ 31 ≤ v)
    (h2 : v < 2 ^ 31) (h3 : v ≠ -2 ^ 31) :
    cstring (minimal_itoa_for_signals v b 12).2.buf 0 12
      = cstring (simple_itoa v b' 12).2.buf (simple_itoa v b' 12).1 12 := by
  rw [minimal_itoa_out v b h1 h2 h3, simple_itoa_out v b' h1 h2 h3]

/-- C9 witness at `-57`. -/
theorem C9_duplicate_converters_agree_witness :
    cstring (minimal_itoa_for_signals (-57) junk 12).2.buf 0 12
      = cstring (simple_itoa (-57) junk 12).2.buf (simple_itoa (-57) junk 12).1 12 :=
  C9_duplicate_converters_agree (-57) junk junk (by norm_num) (by norm_num) (by norm_num)

/-- C10: for `frame_count ≤ 0` and a valid destination the composer never
reads the frame array (the result does not depend on it), emits exactly the
header strings — the Frames_count field rendering the possibly negative
count — and the end marker, with no frame lines. -/
theorem C10_nonpositive_frame_count (w : Oracle) (fd sig ts : Int) (tid : Nat)
    (frames frames' : Nat → Nat) (fc : Int) (hfd : 0 ≤ fd) (hfc : fc ≤ 0) :
    (write_minimal_crash_info_c w fd sig ts tid frames fc).2.calls
        = headerCalls sig ts tid fc ++ [endMarker] ∧
    write_minimal_crash_info_c w fd sig ts tid frames fc
        = write_minimal_crash_info_c w fd sig ts tid frames' fc ∧
    (headerCalls sig ts tid fc).get? 7 = some (int32Str (toInt32 fc)) ∧
    (-2 ^ 31 < fc → parseDec (int32Str (toInt32 fc)) = fc) := by
  have hloop : ∀ (fr : Nat → Nat) (st : WSt), frameLoop w fr fc 0 st = st := by
    intro fr st
    rw [frameLoop, if_neg (by push_cast; omega)]
  refine ⟨?_, ?_, ?_, ?_⟩
  · rw [composer_unfold w fd sig ts tid frames fc hfd, doWrite_calls, hloop,
      headerSt_calls]
  · rw [composer_unfold w fd sig ts tid frames fc hfd,
      composer_unfold w fd sig ts tid frames' fc hfd, hloop, hloop]
  · rw [headerCalls]
    rfl
  · intro h
    have h32 : toInt32 fc = fc := toInt32_eq_self fc (by omega) (by omega)
    rw [h32, int32Str_eq fc (by omega) (by omega) (by omega)]
    exact parseDec_decChars fc

/-- C10 witness at `frame_count = -3`. -/
theorem C10_nonpositive_frame_count_witness :
    (write_minimal_crash_info_c succW 1 0 0 0 (fun _ => 0) (-3)).2.calls
        = headerCalls 0 0 0 (-3) ++ [endMarker] ∧
    write_minimal_crash_info_c succW 1 0 0 0 (fun _ => 0) (-3)
        = write_minimal_crash_info_c succW 1 0 0 0 (fun _ => 7) (-3) ∧
    parseDec (int32Str (toInt32 (-3))) = -3 :=
  ⟨(C10_nonpositive_frame_count succW 1 0 0 0 (fun _ => 0) (fun _ => 7) (-3)
      (by norm_num) (by norm_num)).1,
   (C10_nonpositive_frame_count succW 1 0 0 0 (fun _ => 0) (fun _ => 7) (-3)
      (by norm_num) (by norm_num)).2.1,
   (C10_nonpositive_frame_count succW 1 0 0 0 (fun _ => 0) (fun _ => 7) (-3)
      (by norm_num) (by norm_num)).2.2.2 (by norm_num)⟩

/-- C1: with a valid destination, fully succeeding writes, signal 11,
timestamp 1700000000, thread id 123456789012 and frames
`[0xDEADBEEF, NULL]`, the composer emits exactly the specified report text
and returns its length, 150. -/
theorem C1_exact_output :
    (write_minimal_crash_info_c succW 1 11 1700000000 123456789012
        (fun i => if i = 0 then 0xDEADBEEF else 0) 2).2.calls.join
      = ("Signal: 11\nTimestamp: 1700000000\nThreadID: 123456789012\nFrames_count: 2\nFrames (raw addresses):\n  0xdeadbeef\n  0x0 (nil)\n--- C Minimal Report End ---\n").toList ∧
    (write_minimal_crash_info_c succW 1 11 1700000000 123456789012
        (fun i => if i = 0 then 0xDEADBEEF else 0) 2).1 = 150 ∧
    ("Signal: 11\nTimestamp: 1700000000\nThreadID: 123456789012\nFrames_count: 2\nFrames (raw addresses):\n  0xdeadbeef\n  0x0 (nil)\n--- C Minimal Report End ---\n").toList.length = 150 := by
  have e1 : int32Str 11 = "11".toList := by
    rw [int32Str_eq 11 (by norm_num) (by norm_num) (by norm_num)]
    simp [decChars, natDecStr, natDigitsRev, dchar]
  have e2 : int32Str (toInt32 1700000000) = "1700000000".toList := by
    rw [toInt32_eq_self 1700000000 (by norm_num) (by norm_num),
      int32Str_eq 1700000000 (by norm_num) (by norm_num) (by norm_num)]
    simp [decChars, natDecStr, natDigitsRev, dchar]
  have e3 : uint64Str 123456789012 = "123456789012".toList := by
    rw [uint64Str_eq 123456789012 (by norm_num), if_neg (by norm_num)]
    simp [natDecStr, natDigitsRev, dchar]
  have e4 : int32Str (toInt32 2) = "2".toList := by
    rw [toInt32_eq_self 2 (by norm_num) (by norm_num),
      int32Str_eq 2 (by norm_num) (by norm_num) (by norm_num)]
    simp [decChars, natDecStr, natDigitsRev, dchar]
  have e5 : ptrStr 0xDEADBEEF = "0xdeadbeef".toList := by
    rw [ptrStr_eq 0xDEADBEEF (by norm_num), hexRender, if_neg (by norm_num)]
    simp [natHexStr, hexDigitsRev, hexChars]
  rw [composer_unfold succW 1 11 1700000000 123456789012
    (fun i => if i = 0 then 0xDEADBEEF else 0) 2 (by norm_num)]
  simp only [headerSt]
  rw [e2, e4, e1, e3]
  rw [frameLoop, if_pos (show (((0 : Nat) : Int)) < 2 by norm_num)]
  rw [show (if (0 : Nat) = 0 then (0xDEADBEEF : Nat) else 0) = 0xDEADBEEF from rfl]
  rw [emitFrame, if_pos (show (0xDEADBEEF : Nat) ≠ 0 from by norm_num), e5]
  dsimp only
  rw [if_neg (by decide)]
  rw [show ((0 : Nat) + 1) = 1 from rfl]
  rw [frameLoop, if_pos (show (((1 : Nat) : Int)) < 2 by norm_num)]
  rw [show (if (1 : Nat) = 0 then (0xDEADBEEF : Nat) else 0) = 0 from rfl]
  rw [emitFrame, if_neg (show ¬(0 : Nat) ≠ 0 from by norm_num)]
  dsimp only
  rw [if_neg (by decide)]
  rw [show ((1 : Nat) + 1) = 2 from rfl]
  rw [frameLoop, if_neg (show ¬(((2 : Nat) : Int)) < 2 by norm_num)]
  refine ⟨by decide, by decide, by decide⟩

/-- C3: if the header plus all frame lines but the last would exceed the
4000-byte safety bound (writes fully succeeding), the loop stops before
emitting all frames, the end marker still appears exactly once, and the
returned byte count is positive and at most 4000 plus one frame line (21)
plus the end marker (29). -/
theorem C3_safety_bound (sig ts : Int) (tid : Nat) (frames : Nat → Nat) (fc fd : Int)
    (hfd : 0 ≤ fd) (hfc : 2 ≤ fc)
    (hs1 : -2 ^ 31 ≤ sig) (hs2 : sig < 2 ^ 31) (htid : tid < 2 ^ 64)
    (hfr : ∀ j, frames j < 2 ^ 64)
    (hover : headerLen sig ts tid fc + sumLines frames 0 (fc.toNat - 1) > 4000) :
    ((List.countP isFrameStart
        (write_minimal_crash_info_c succW fd sig ts tid frames fc).2.calls : Int) < fc) ∧
    (write_minimal_crash_info_c succW fd sig ts tid frames fc).2.calls.count endMarker
        = 1 ∧
    0 < (write_minimal_crash_info_c succW fd sig ts tid frames fc).1 ∧
    (write_minimal_crash_info_c succW fd sig ts tid frames fc).1 ≤ 4000 + 21 + 29 := by
  have hH := headerLen_bounds sig ts tid fc hs1 hs2 htid
  have hHtot : (headerSt succW sig ts tid fc).total = headerLen sig ts tid fc :=
    headerSt_succ_total sig ts tid fc
  have hHcnt : List.countP isFrameStart (headerSt succW sig ts tid fc).calls = 0 := by
    rw [headerSt_calls]
    exact countP_headerCalls sig ts tid fc hs1 hs2 htid
  rw [composer_unfold succW fd sig ts tid frames fc hfd]
  have hstop := frameLoop_succ_stop ((fc - 0).toNat) frames fc 0
    (headerSt succW sig ts tid fc) rfl hfc hfr (by omega) (by omega)
  rw [hHcnt] at hstop
  have hbound := frameLoop_succ_bound ((fc - 0).toNat) frames fc 0
    (headerSt succW sig ts tid fc) rfl hfr (by omega)
  have hmono := frameLoop_total_le ((fc - 0).toNat) succW frames fc 0
    (headerSt succW sig ts tid fc) rfl
  have hfinaltot : (doWrite succW endMarker
      (frameLoop succW frames fc 0 (headerSt succW sig ts tid fc))).total
      = (frameLoop succW frames fc 0 (headerSt succW sig ts tid fc)).total + 29 := by
    rw [doWrite_total, succW_apply,
      if_pos (show ((endMarker.length : Int)) > 0 from by decide),
      show ((endMarker.length : Int)) = 29 from by decide]
  obtain ⟨mid, hmid, hmidmem⟩ := frameLoop_calls ((fc - 0).toNat) succW frames fc 0
    (headerSt succW sig ts tid fc) rfl
  refine ⟨?_, ?_, ?_, ?_⟩
  · rw [doWrite_calls, List.countP_append,
      show List.countP isFrameStart [endMarker] = 0 from by decide]
    have hfc' : fc.toNat - 1 < fc.toNat := by omega
    push_cast
    omega
  · rw [doWrite_calls, List.count_append, List.count_singleton_self, hmid,
      List.count_append, headerSt_calls]
    rw [List.count_eq_zero.mpr (endMarker_not_mem_headerCalls sig ts tid fc hs1 hs2 htid),
      List.count_eq_zero.mpr (show endMarker ∉ mid from by
        intro hm
        obtain ⟨jj, hj⟩ := hmidmem endMarker hm
        exact frameCalls_ne_endMarker (frames jj) (hfr jj) endMarker hj rfl)]
  · show 0 < (if _ > 0 then _ else -1)
    rw [if_pos (by omega)]
    omega
  · show (if _ > 0 then _ else (-1 : Int)) ≤ 4050
    rw [if_pos (by omega)]
    omega

/-- C3 witness: 400 null frames overflow the bound. -/
theorem C3_safety_bound_witness :
    ((List.countP isFrameStart
        (write_minimal_crash_info_c succW 1 0 0 0 (fun _ => 0) 400).2.calls : Int) < 400) ∧
    (write_minimal_crash_info_c succW 1 0 0 0 (fun _ => 0) 400).2.calls.count endMarker
        = 1 ∧
    0 < (write_minimal_crash_info_c succW 1 0 0 0 (fun _ => 0) 400).1 ∧
    (write_minimal_crash_info_c succW 1 0 0 0 (fun _ => 0) 400).1 ≤ 4000 + 21 + 29 :=
  C3_safety_bound 0 0 0 (fun _ => 0) 400 1 (by norm_num) (by norm_num) (by norm_num)
    (by norm_num) (by norm_num) (fun _ => by norm_num)
    (by
      have hsum : ∀ (k i m : Nat), m - i = k →
          sumLines (fun _ => 0) i m = 12 * ((m : Int) - i) ∨ (m ≤ i ∧
          sumLines (fun _ => 0) i m = 0) := by
        intro k
        induction k using Nat.strong_induction_on with
        | _ k ih =>
          intro i m hk
          by_cases h : i < m
          · left
            rw [sumLines_unfold, if_pos h]
            have hlc : ((lineChars ((fun _ => (0 : Nat)) i)).length : Int) = 12 := rfl
            rcases ih (m - (i + 1)) (by omega) (i + 1) m rfl with hh | hh
            · rw [hh, hlc]
              push_cast
              ring
            · rw [hh.2, hlc]
              have hmi : m = i + 1 := by omega
              subst hmi
              push_cast
              ring
          · right
            rw [sumLines_unfold, if_neg h]
            exact ⟨by omega, rfl⟩
      rcases hsum ((400 : Int).toNat - 1) 0 ((400 : Int).toNat - 1) (by norm_num)
        with hh | hh
      · rw [hh]
        have : headerLen 0 0 0 400 = 77 := by
          have f1 : int32Str 0 = ['0'] := by
            rw [int32Str_eq 0 (by norm_num) (by norm_num) (by norm_num)]
            rfl
          have f2 : int32Str (toInt32 0) = ['0'] := by
            rw [toInt32_eq_self 0 (by norm_num) (by norm_num)]
            exact f1
          have f3 : uint64Str 0 = ['0'] := by
            rw [uint64Str_eq 0 (by norm_num)]
            rfl
          have f4 : int32Str (toInt32 400) = "400".toList := by
            rw [toInt32_eq_self 400 (by norm_num) (by norm_num),
              int32Str_eq 400 (by norm_num) (by norm_num) (by norm_num)]
            simp [decChars, natDecStr, natDigitsRev, dchar]
          rw [headerLen, headerCalls, f2, f4, f1, f3]
          decide
        rw [this]
        norm_num
      · have := hh.1
        omega)

end CrashReport
